import Mathlib

/-!
Verification development for the redux-routable routing core
(packages/redux-routable/src/index.js).

The route-configuration model (Route / Redirect / Fallback / Scope / Router),
the bidirectional location <-> route translation engine (routeToLocation,
locationToRoute) and the navigation middleware (createMiddleware) are embedded
shallowly below, each definition mirroring the corresponding source function.

External collaborators are modelled from their interface contracts (spec
sections 4.1 and 6):
  * the path-pattern compiler (path-to-regexp): a path template is parsed into
    slash-separated segments, each either a static segment or a named
    placeholder `:name` with an optional `?` modifier; exact matchers consume
    the whole pathname, fallback matchers match a prefix at a segment
    boundary; `compile` fills a template from named parameters and fails on a
    missing required placeholder or on an empty provided value
    (percent-encoding of parameter values is not modelled);
  * the query-string codec: `parse` splits the raw query string on `&` into
    `key=value` pairs (dropping a single leading `?` and empty pieces),
    `stringify` renders a flat string mapping sorted by key (the default of
    the query-string package); percent-encoding is not modelled;
  * the history collaborator: push/replace store a location whose nonempty
    search and hash are normalized to start with `?` and `#`.

JavaScript objects that hold parameters are modelled as insertion-ordered
association lists with unique keys (`objInsert` reproduces property
assignment); dynamically typed constructor arguments are modelled by the
`CVal` type, and values usable as route names by `JSName` (object identity
is not modelled, so two object-valued names never compare equal, which is
the `===` behaviour for distinct objects).
-/

/-! ## Characters, segment splitting and joining (pattern / codec groundwork) -/

/-- Split a character list on a separator character, dropping empty pieces.
`cur` holds the characters of the current piece in reverse order. -/
def splitAux (sep : Char) (cur : List Char) : List Char → List String
  | [] => if cur.isEmpty then [] else [String.mk cur.reverse]
  | c :: cs =>
    if c = sep then
      if cur.isEmpty then splitAux sep [] cs
      else String.mk cur.reverse :: splitAux sep [] cs
    else splitAux sep (c :: cur) cs

/-- Split a string on a separator character, dropping empty pieces. -/
def splitOnCharD (sep : Char) (s : String) : List String :=
  splitAux sep [] s.toList

/-- The slash-separated segments of a pathname or path template.  Non-strict
matching (the path-to-regexp default) ignores empty segments, so `""`, `"/"`
and `"/cart/"` have segments `[]`, `[]` and `["cart"]`. -/
def segsOf (s : String) : List String := splitOnCharD '/' s

/-- Join segments with a leading slash before each: `["a","b"]` becomes
`"/a/b"`; the empty list becomes `""`. -/
def joinSlash : List String → String
  | [] => ""
  | p :: ps => "/" ++ p ++ joinSlash ps

/-- Join pieces with a separator between them (no leading separator). -/
def joinSep (sep : Char) : List String → String
  | [] => ""
  | [p] => p
  | p :: ps => p ++ String.mk [sep] ++ joinSep sep ps

/-! ## Pattern adapter (model of path-to-regexp) -/

/-- A parsed template segment: a static segment, or a named placeholder with
an optional modifier. -/
inductive Seg where
  | static (s : String)
  | param (name : String) (opt : Bool)
deriving DecidableEq, Repr

/-- Parse one template segment: `:name` and `:name?` are placeholders,
anything else is static. -/
def parseSeg (s : String) : Seg :=
  match s.toList with
  | ':' :: rest =>
    if rest.getLast? = some '?' then Seg.param (String.mk rest.dropLast) true
    else Seg.param (String.mk rest) false
  | _ => Seg.static s

/-- Parse a path template into segments (model of `pathToRegexp.parse`). -/
def parsePath (template : String) : List Seg :=
  (segsOf template).map parseSeg

/-- The placeholder names of a token list, in declaration order. -/
def paramNames (ts : List Seg) : List String :=
  ts.filterMap fun t => match t with
    | Seg.param n _ => some n
    | Seg.static _ => none

/-- Model of `getPathParamNames` (index.js lines 213-217): parse the path and
keep the placeholder token names in order. -/
def getPathParamNames (path : String) : List String :=
  paramNames (parsePath path)

/-- Match a token list against pathname segments, returning the list of
captures (one per placeholder, in order; `none` for an unused optional
placeholder).  `pm` is prefix mode: when true, leftover pathname
segments are allowed (the `end: false` option used for Fallback patterns).
An optional placeholder greedily consumes a segment and backtracks to the
skipped alternative, matching the regex produced by path-to-regexp. -/
def execSegs : List Seg → List String → Bool → Option (List (Option String))
  | [], ps, pm => if pm then some [] else if ps.isEmpty then some [] else none
  | Seg.static s :: ts, ps, pm =>
    match ps with
    | [] => none
    | p :: ps' => if p = s then execSegs ts ps' pm else none
  | Seg.param _ false :: ts, ps, pm =>
    match ps with
    | [] => none
    | p :: ps' => (execSegs ts ps' pm).map (fun caps => some p :: caps)
  | Seg.param _ true :: ts, ps, pm =>
    match ps with
    | [] => (execSegs ts [] pm).map (fun caps => none :: caps)
    | p :: ps' =>
      match execSegs ts ps' pm with
      | some caps => some (some p :: caps)
      | none => (execSegs ts (p :: ps') pm).map (fun caps => none :: caps)

/-- A compiled pattern: the template it was compiled from and whether it
matches as a prefix (`end: false`, used by Fallback). -/
structure Pattern where
  template : String
  prefixMode : Bool
deriving DecidableEq, Repr

/-- Model of `pattern.exec(pathname)` restricted to the capture groups
(`exec(...).slice(1)`): `none` when the pattern does not match. -/
def execPat (p : Pattern) (pathname : String) : Option (List (Option String)) :=
  execSegs (parsePath p.template) (segsOf pathname) p.prefixMode

/-- Model of `pattern.test(pathname)`. -/
def patternTest (p : Pattern) (pathname : String) : Bool :=
  (execPat p pathname).isSome

/-! ## Parameter objects -/

/-- A JavaScript object holding string parameters: an insertion-ordered
association list with unique keys. -/
abbrev Params : Type := List (String × String)

/-- Whether the object has the given key. -/
def hasKey (ps : Params) (k : String) : Bool :=
  ps.any fun p => p.1 == k

/-- Property assignment `object[k] = v`: overwrite in place if the key
exists, otherwise append. -/
def objInsert (ps : Params) (k v : String) : Params :=
  if hasKey ps k then
    ps.map fun p => if p.1 == k then (k, v) else p
  else ps ++ [(k, v)]

/-- Object spread `{...a, ...b}`: assign every entry of `b` over `a`. -/
def jsMerge (a b : Params) : Params :=
  b.foldl (fun acc p => objInsert acc p.1 p.2) a

/-- Model of `keyFilter` (index.js lines 219-223): keep the entries whose key
satisfies the condition, in order. -/
def keyFilter (ps : Params) (cond : String → Bool) : Params :=
  ps.filter fun p => cond p.1

/-- Look a key up (first occurrence). -/
def lookupP (ps : Params) (k : String) : Option String :=
  List.lookup k ps

/-- The keys of the object, in order. -/
def keysP (ps : Params) : List String :=
  ps.map Prod.fst

/-- Model of the capture-zipping reduce in `locationToRoute` (lines 259-263):
walk the placeholder names with the positional capture values, assigning
`params[name] = value` and skipping absent captures. -/
def zipParamsAux (acc : Params) : List String → List (Option String) → Params
  | [], _ => acc
  | n :: ns, vs =>
    let acc' := match vs.head? with
      | some (some v) => objInsert acc n v
      | _ => acc
    zipParamsAux acc' ns vs.tail

/-- The path-parameter object built from placeholder names and captures. -/
def zipParams (ns : List String) (vs : List (Option String)) : Params :=
  zipParamsAux [] ns vs

/-! ## Query-string codec (model of the query-string package) -/

/-- Split a `key=value` piece at the first `=`; a piece without `=` has
value `""`. -/
def parsePairAux (acc : List Char) : List Char → String × String
  | [] => (String.mk acc.reverse, "")
  | c :: rest =>
    if c = '=' then (String.mk acc.reverse, String.mk rest)
    else parsePairAux (c :: acc) rest

/-- Parse one rendered query piece into a key / value pair. -/
def parsePair (s : String) : String × String :=
  parsePairAux [] s.toList

/-- Drop one leading `?` from a raw query string (the codec ignores it). -/
def stripQM (l : List Char) : List Char :=
  match l with
  | '?' :: rest => rest
  | l => l

/-- Parse a raw query string into a parameter object: drop one leading `?`,
split on `&`, split each piece at its first `=`, and assign the pairs in
order. -/
def parseQS (s : String) : Params :=
  (splitAux '&' [] (stripQM s.toList)).foldl
    (fun acc piece => objInsert acc (parsePair piece).1 (parsePair piece).2) []

/-- Byte-order comparison of keys, used by the sorting stringifier. -/
def charListLe : List Char → List Char → Bool
  | [], _ => true
  | _ :: _, [] => false
  | a :: as, b :: bs =>
    if a.toNat < b.toNat then true
    else if b.toNat < a.toNat then false
    else charListLe as bs

/-- Key order on parameter entries. -/
def keyLeb (a b : String × String) : Bool :=
  charListLe a.1.toList b.1.toList

/-- Insert an entry into a key-sorted list. -/
def insertPair (x : String × String) : List (String × String) → List (String × String)
  | [] => [x]
  | y :: ys => if keyLeb x y then x :: y :: ys else y :: insertPair x ys

/-- Sort parameter entries by key (insertion sort). -/
def sortPairs : List (String × String) → List (String × String)
  | [] => []
  | x :: xs => insertPair x (sortPairs xs)

/-- Render one pair as `key=value`. -/
def renderPair (p : String × String) : String :=
  p.1 ++ "=" ++ p.2

/-- Model of `queryString.stringify`: render the entries sorted by key (the
package default), joined with `&`, without a leading `?`. -/
def stringifyQS (ps : Params) : String :=
  joinSep '&' ((sortPairs ps).map renderPair)

/-- Canonical form of a raw query string: its parsed entries sorted by key. -/
def canonQS (s : String) : List (String × String) :=
  sortPairs (parseQS s)

/-! ## Route configuration model (index.js lines 75-161) -/

/-- The three leaf entry kinds of a router configuration. -/
inductive EntryKind where
  | route
  | redirect
  | fallback
deriving DecidableEq, Repr

/-- A defined JavaScript value used as a route name (or redirect target).
Object identity is not modelled: `objN` stands for any object-valued name,
and two such names never compare equal (the `===` result for distinct
objects). -/
inductive JSName where
  | str (s : String)
  | num (n : Int)
  | boolN (b : Bool)
  | objN
deriving DecidableEq, Repr

/-- Strict equality `===` on name values. -/
def nameEq : JSName → JSName → Bool
  | JSName.str a, JSName.str b => a == b
  | JSName.num a, JSName.num b => a == b
  | JSName.boolN a, JSName.boolN b => a == b
  | _, _ => false

/-- A flattened router entry, as built by `createConfig`: the constructor tag,
the `name` (or `to` for a Redirect), the stored `path` and the compiled
`pattern`. -/
structure Entry where
  kind : EntryKind
  name : JSName
  path : String
  pattern : Pattern
deriving DecidableEq, Repr

/-- A Scope configuration: the base path and the rewritten children. -/
structure ScopeT where
  base : String
  children : List Entry
deriving DecidableEq, Repr

/-- A Router configuration: the flattened ordered entry list. -/
structure RouterT where
  children : List Entry
deriving DecidableEq, Repr

/-- A dynamically typed JavaScript value passed to a configuration function. -/
inductive CVal where
  | undef
  | str (s : String)
  | num (n : Int)
  | boolV (b : Bool)
  | arrC (xs : List CVal)
  | entryC (e : Entry)
  | scopeC (sc : ScopeT)
  | routerC (r : RouterT)

/-- The name value of a defined argument (`none` exactly for `undefined`). -/
def jsNameOf : CVal → Option JSName
  | CVal.undef => none
  | CVal.str s => some (JSName.str s)
  | CVal.num n => some (JSName.num n)
  | CVal.boolV b => some (JSName.boolN b)
  | CVal.arrC _ => some JSName.objN
  | CVal.entryC _ => some JSName.objN
  | CVal.scopeC _ => some JSName.objN
  | CVal.routerC _ => some JSName.objN

/-- The effective path argument: the default parameter `path = ''` applies to
`undefined`, a string is used as given, anything else is a type error. -/
def pathArg : CVal → Option String
  | CVal.undef => some ""
  | CVal.str s => some s
  | _ => none

/-- Model of `Route(name, path = '')` (index.js lines 81-91): reject an
undefined name, then a non-string path; store the path and the exact-match
pattern compiled from it. -/
def RouteJS (name path : CVal) : Except String Entry :=
  match jsNameOf name with
  | none => Except.error "TypeError: name cannot be undefined"
  | some n =>
    match pathArg path with
    | none => Except.error "TypeError: path is not a string"
    | some s => Except.ok ⟨EntryKind.route, n, s, ⟨s, false⟩⟩

/-- Model of `Redirect(to, path = '')` (index.js lines 93-103). -/
def RedirectJS (target path : CVal) : Except String Entry :=
  match jsNameOf target with
  | none => Except.error "TypeError: to cannot be undefined"
  | some n =>
    match pathArg path with
    | none => Except.error "TypeError: path is not a string"
    | some s => Except.ok ⟨EntryKind.redirect, n, s, ⟨s, false⟩⟩

/-- Model of `Fallback(name, path = '')` (index.js lines 105-117): the
pattern is compiled from the given path with `end: false` (prefix matching),
but the stored `path` field is the empty string. -/
def FallbackJS (name path : CVal) : Except String Entry :=
  match jsNameOf name with
  | none => Except.error "TypeError: name cannot be undefined"
  | some n =>
    match pathArg path with
    | none => Except.error "TypeError: path is not a string"
    | some s => Except.ok ⟨EntryKind.fallback, n, "", ⟨s, true⟩⟩

/-- The rewrite `Scope` applies to one child (index.js lines 128-137): call
the child constructor again with `base + child.path`.  A Fallback child goes
through `Fallback(child.name, base + child.path)`, so its stored path stays
empty and its prefix pattern becomes the base (its own stored path being
empty). -/
def scopeChild (base : String) (c : Entry) : Entry :=
  match c.kind with
  | EntryKind.fallback => ⟨EntryKind.fallback, c.name, "", ⟨base ++ c.path, true⟩⟩
  | EntryKind.redirect => ⟨EntryKind.redirect, c.name, base ++ c.path, ⟨base ++ c.path, false⟩⟩
  | EntryKind.route => ⟨EntryKind.route, c.name, base ++ c.path, ⟨base ++ c.path, false⟩⟩

/-- Model of `Scope(base, router)` (index.js lines 119-140): reject a
non-string base, then a non-Router second argument; rewrite every child. -/
def ScopeJS (base router : CVal) : Except String ScopeT :=
  match base with
  | CVal.str b =>
    match router with
    | CVal.routerC r => Except.ok ⟨b, r.children.map (scopeChild b)⟩
    | _ => Except.error "TypeError: router is not a Router"
  | _ => Except.error "TypeError: base is not a string"

/-- The flattening reduce of `Router` (index.js lines 147-158): a Scope child
contributes its rewritten children, a leaf entry contributes itself, anything
else (including a Router) is a type error raised at the first offender. -/
def routerFold : List CVal → List Entry → Except String (List Entry)
  | [], acc => Except.ok acc
  | x :: xs, acc =>
    match x with
    | CVal.scopeC sc => routerFold xs (acc ++ sc.children)
    | CVal.entryC e => routerFold xs (acc ++ [e])
    | _ => Except.error "TypeError: not a valid Router child"

/-- Model of `Router(children)` (index.js lines 142-161): reject a non-Array
argument, then flatten the children in order. -/
def RouterJS (children : CVal) : Except String RouterT :=
  match children with
  | CVal.arrC xs =>
    match routerFold xs [] with
    | Except.ok es => Except.ok ⟨es⟩
    | Except.error msg => Except.error msg
  | _ => Except.error "TypeError: children is not an Array"

/-! ## Locations and translation (index.js lines 225-268) -/

/-- A location triple as exchanged with the history collaborator. -/
structure Location where
  pathname : String
  search : String
  hash : String
deriving DecidableEq, Repr

/-- The error class thrown by `routeToLocation` (outbound translation). -/
inductive RtErr where
  | routeMatchError (msg : String)
deriving DecidableEq, Repr

/-- The error class thrown by `locationToRoute` (inbound translation). -/
inductive LocErr where
  | locationMatchError (msg : String)
deriving DecidableEq, Repr

/-- The result of a successful inbound match. -/
structure MatchResult where
  route : Entry
  params : Params
  hash : String
deriving DecidableEq, Repr

/-- Fill the parsed template tokens from a path-parameter object, returning
the emitted segments (model of the function produced by
`pathToRegexp.compile`): a provided value fills its placeholder but an empty
value fails validation; a missing value is an error unless the placeholder is
optional, in which case its segment is omitted. -/
def fillParts : List Seg → Params → Except String (List String)
  | [], _ => Except.ok []
  | Seg.static s :: ts, ps => (fillParts ts ps).map (fun rest => s :: rest)
  | Seg.param n opt :: ts, ps =>
    match lookupP ps n with
    | some v =>
      if v = "" then Except.error ("Expected " ++ n ++ " to match")
      else (fillParts ts ps).map (fun rest => v :: rest)
    | none =>
      if opt then fillParts ts ps
      else Except.error ("Expected " ++ n ++ " to be defined")

/-- Model of `pathToRegexp.compile(path)(pathParams)`: join the emitted
segments with slashes; a template that is nonempty but has no segments (such
as `"/"`) compiles to `"/"`, and an empty template to `""`. -/
def fillPath (template : String) (ps : Params) : Except String String :=
  match fillParts (parsePath template) ps with
  | Except.error e => Except.error e
  | Except.ok parts =>
    Except.ok
      (match parts with
       | [] => if template = "" then "" else if parsePath template = [] then "/" else ""
       | _ => joinSlash parts)

/-- Model of `routeToLocation(router, name, params, hash)` (index.js lines
226-248): find the first Route child with the given name, partition the
parameters by the placeholder names of its path, fill the template with the
path side and stringify the query side. -/
def routeToLocation (router : RouterT) (name : JSName) (params : Params)
    (hash : String) : Except RtErr Location :=
  match router.children.find? (fun c => c.kind == EntryKind.route && nameEq c.name name) with
  | none => Except.error (RtErr.routeMatchError "No route matching route name")
  | some route =>
    let pathParamNames := getPathParamNames route.path
    let pathParams := keyFilter params (fun k => pathParamNames.contains k)
    let queryParams := keyFilter params (fun k => !(pathParamNames.contains k))
    let search := stringifyQS queryParams
    match fillPath route.path pathParams with
    | Except.error msg => Except.error (RtErr.routeMatchError msg)
    | Except.ok pathname => Except.ok ⟨pathname, search, hash⟩

/-- Model of `locationToRoute(router, location)` (index.js lines 250-268):
find the first child whose pattern accepts the pathname, zip its placeholder
names with the positional captures (skipping absent ones), parse the query
string and merge the query parameters over the path parameters. -/
def locationToRoute (router : RouterT) (loc : Location) :
    Except LocErr MatchResult :=
  match router.children.find? (fun c => patternTest c.pattern loc.pathname) with
  | none =>
    Except.error (LocErr.locationMatchError
      ("No route matching location path: " ++ loc.pathname))
  | some route =>
    let pathParamNames := getPathParamNames route.path
    let pathParamValues := (execPat route.pattern loc.pathname).getD []
    let pathParams := zipParams pathParamNames pathParamValues
    let queryParams := parseQS loc.search
    let params := jsMerge pathParams queryParams
    Except.ok ⟨route, params, loc.hash⟩

/-! ## Navigation middleware model (index.js lines 270-345)

The middleware is an event-driven interceptor; one step of it (one history
listener invocation, or the handling of one absolute navigation action) is
modelled as a function from inputs to the list of effects it performs, in
order: history mutations, `window.open`, and store dispatches. -/

/-- The payload of a route-changed notification. -/
structure RPayload where
  route : JSName
  params : Params
  hash : String
deriving DecidableEq, Repr

/-- One observable effect of a middleware step. -/
inductive Effect where
  | pushLoc (loc : Location)
  | replaceLoc (loc : Location)
  | openHref (href : String)
  | dispatchChanged (route : JSName) (params : Params) (hash : String)
      (previous : Option RPayload)
  | dispatchRouteNotMatched (err : RtErr) (route : JSName) (params : Params)
      (hash : String)
  | dispatchLocationNotMatched (err : LocErr) (loc : Location)
deriving DecidableEq, Repr

/-- Model of `historyListener` (index.js lines 278-294): resolve the incoming
location; a Redirect match issues one `history.replace` with the translated
target location (an outbound failure there is rethrown, hence the `Except`);
any other match dispatches a route-changed notification; a
`LocationMatchError` is caught and becomes a location-not-matched dispatch. -/
def historyListener (router : RouterT) (previous : Option RPayload)
    (loc : Location) : Except RtErr (List Effect) :=
  match locationToRoute router loc with
  | Except.error e => Except.ok [Effect.dispatchLocationNotMatched e loc]
  | Except.ok res =>
    if res.route.kind = EntryKind.redirect then
      match routeToLocation router res.route.name res.params res.hash with
      | Except.ok target => Except.ok [Effect.replaceLoc target]
      | Except.error e => Except.error e
    else
      Except.ok [Effect.dispatchChanged res.route.name res.params res.hash previous]

/-- The three absolute navigation intents. -/
inductive NavKind where
  | pushK
  | replaceK
  | openK
deriving DecidableEq, Repr

/-- Prefix a nonempty search with `?` (history collaborator contract). -/
def normSearch (s : String) : String :=
  match s.toList with
  | [] => ""
  | '?' :: _ => s
  | _ => "?" ++ s

/-- Prefix a nonempty hash with `#` (history collaborator contract). -/
def normHash (s : String) : String :=
  match s.toList with
  | [] => ""
  | '#' :: _ => s
  | _ => "#" ++ s

/-- Model of `history.createHref`: pathname, then search and hash with their
separators. -/
def createHref (loc : Location) : String :=
  loc.pathname ++ normSearch loc.search ++ normHash loc.hash

/-- Model of the PUSH / REPLACE / OPEN branch of the middleware (index.js
lines 301-324): translate the route outbound; on success perform exactly the
matching history effect; a `RouteMatchError` is caught and becomes a
route-not-matched dispatch, so this branch never throws and never touches
history on failure. -/
def handleAbsolute (router : RouterT) (k : NavKind) (route : JSName)
    (params : Params) (hash : String) : List Effect :=
  match routeToLocation router route params hash with
  | Except.ok loc =>
    match k with
    | NavKind.pushK => [Effect.pushLoc loc]
    | NavKind.replaceK => [Effect.replaceLoc loc]
    | NavKind.openK => [Effect.openHref (createHref loc)]
  | Except.error e => [Effect.dispatchRouteNotMatched e route params hash]

/-- The state of the external history collaborator: its entry stack and the
current index. -/
structure Hist where
  entries : List Location
  index : Nat
deriving DecidableEq, Repr

/-- A location as stored by the history collaborator: nonempty search and
hash carry their `?` / `#` separators. -/
def normalizeLoc (loc : Location) : Location :=
  ⟨loc.pathname, normSearch loc.search, normHash loc.hash⟩

/-- Apply one middleware effect to the history state: push drops the forward
stack and appends, replace overwrites in place, everything else leaves
history untouched. -/
def applyEffect (h : Hist) : Effect → Hist
  | Effect.pushLoc loc => ⟨h.entries.take (h.index + 1) ++ [normalizeLoc loc], h.index + 1⟩
  | Effect.replaceLoc loc => ⟨h.entries.set h.index (normalizeLoc loc), h.index⟩
  | _ => h

/-- Apply the effects of a middleware step in order. -/
def applyEffects (h : Hist) (es : List Effect) : Hist :=
  es.foldl applyEffect h

/-- The current location of the history collaborator. -/
def currentLoc (h : Hist) : Location :=
  h.entries.getD h.index ⟨"", "", ""⟩

/-! ## Location equivalence (for the round-trip property) -/

/-- Two locations are equivalent when their pathnames have the same segments
(non-strict matching ignores trailing slashes), their query strings parse to
the same mapping, and their hashes are equal. -/
def locEquiv (a b : Location) : Bool :=
  segsOf a.pathname == segsOf b.pathname &&
  canonQS a.search == canonQS b.search &&
  a.hash == b.hash

/-! ## Concrete example configurations (used by witnesses) -/

/-- The entry built by `Route('home', '/')`. -/
def exEntryHome : Entry := ⟨EntryKind.route, JSName.str "home", "/", ⟨"/", false⟩⟩

/-- The entry built by `Route('item', '/item/:itemId')`. -/
def exEntryItem : Entry :=
  ⟨EntryKind.route, JSName.str "item", "/item/:itemId", ⟨"/item/:itemId", false⟩⟩

/-- The entry built by `Redirect('item', '/product/:itemId')`. -/
def exEntryProduct : Entry :=
  ⟨EntryKind.redirect, JSName.str "item", "/product/:itemId", ⟨"/product/:itemId", false⟩⟩

/-- The entry built by `Fallback('notFound')`. -/
def exEntryNotFound : Entry :=
  ⟨EntryKind.fallback, JSName.str "notFound", "", ⟨"", true⟩⟩

/-- The router of the concrete spec scenario:
`Router([Route('home','/'), Route('item','/item/:itemId'),
Redirect('item','/product/:itemId'), Fallback('notFound')])`. -/
def exRouter : RouterT := ⟨[exEntryHome, exEntryItem, exEntryProduct, exEntryNotFound]⟩

/-- A one-route router used for the round-trip counterexample. -/
def cexRouter : RouterT := ⟨[exEntryItem]⟩

/-- A location whose query string collides with the `itemId` placeholder. -/
def cexLoc : Location := ⟨"/item/123", "?itemId=999", ""⟩

/-! ## First-match lemmas -/

/-- `find?` returns the first element satisfying the predicate: it comes with
an index before which every element fails the predicate. -/
theorem find?_first {α : Type _} (p : α → Bool) :
    ∀ (l : List α) (a : α), l.find? p = some a →
      ∃ i, ∃ hi : i < l.length, l.get ⟨i, hi⟩ = a ∧ p a = true ∧
        ∀ j (hj : j < l.length), j < i → p (l.get ⟨j, hj⟩) = false := by
  intro l
  induction l with
  | nil => intro a h; simp [List.find?] at h
  | cons x xs ih =>
    intro a h
    by_cases hx : p x
    · rw [List.find?_cons_of_pos _ hx] at h
      obtain rfl : x = a := by injection h
      exact ⟨0, Nat.succ_pos _, rfl, hx, fun j hj hj0 => absurd hj0 (Nat.not_lt_zero j)⟩
    · rw [List.find?_cons_of_neg _ hx] at h
      obtain ⟨i, hi, hget, hpa, hprev⟩ := ih a h
      refine ⟨i + 1, Nat.succ_lt_succ hi, hget, hpa, ?_⟩
      intro j hj hji
      cases j with
      | zero => simpa using hx
      | succ j' =>
        have := hprev j' (Nat.lt_of_succ_lt_succ hj) (Nat.lt_of_succ_lt_succ hji)
        simpa using this

/-- C1: locationToRoute scans the flattened entry list in order and returns
the first entry whose matcher accepts the pathname (constructor-built
Fallback matchers are prefix matchers, Route and Redirect matchers are
exact); it fails with a LocationMatchError condition exactly when no entry
matches, and a router containing an empty-path Fallback entry never fails. -/
theorem claim_C1 (router : RouterT) (loc : Location) :
    (∀ res, locationToRoute router loc = Except.ok res →
      ∃ i, ∃ hi : i < router.children.length,
        router.children.get ⟨i, hi⟩ = res.route ∧
        patternTest res.route.pattern loc.pathname = true ∧
        ∀ j (hj : j < router.children.length), j < i →
          patternTest (router.children.get ⟨j, hj⟩).pattern loc.pathname = false) ∧
    ((∃ e, locationToRoute router loc = Except.error e) ↔
      ∀ c ∈ router.children, patternTest c.pattern loc.pathname = false) ∧
    (∀ name path e, RouteJS name path = Except.ok e → e.pattern.prefixMode = false) ∧
    (∀ target path e, RedirectJS target path = Except.ok e → e.pattern.prefixMode = false) ∧
    (∀ name path e, FallbackJS name path = Except.ok e → e.pattern.prefixMode = true) ∧
    (∀ c ∈ router.children, c.pattern = ⟨"", true⟩ →
      ∃ res, locationToRoute router loc = Except.ok res) := by
  refine ⟨?_, ?_, ?_, ?_, ?_, ?_⟩
  · intro res h
    cases hfind : router.children.find? (fun c => patternTest c.pattern loc.pathname) with
    | none => simp [locationToRoute, hfind] at h
    | some a =>
      simp only [locationToRoute, hfind] at h
      obtain rfl : (⟨a, _, _⟩ : MatchResult) = res := by
        injection h
      obtain ⟨i, hi, hget, hpa, hprev⟩ := find?_first _ _ _ hfind
      exact ⟨i, hi, hget, hpa, hprev⟩
  · constructor
    · rintro ⟨e, he⟩ c hc
      cases hfind : router.children.find? (fun c => patternTest c.pattern loc.pathname) with
      | none =>
        have := List.find?_eq_none.mp hfind c hc
        simpa using this
      | some a => simp [locationToRoute, hfind] at he
    · intro hall
      cases hfind : router.children.find? (fun c => patternTest c.pattern loc.pathname) with
      | none =>
        exact ⟨LocErr.locationMatchError ("No route matching location path: " ++ loc.pathname),
          by simp [locationToRoute, hfind]⟩
      | some a =>
        have hmem := List.mem_of_find?_eq_some hfind
        have hpa := List.find?_some hfind
        have := hall a hmem
        simp [this] at hpa
  · intro name path e h
    unfold RouteJS at h
    split at h
    · exact Except.noConfusion h
    · split at h
      · exact Except.noConfusion h
      · injection h with h'
        rw [← h']
  · intro target path e h
    unfold RedirectJS at h
    split at h
    · exact Except.noConfusion h
    · split at h
      · exact Except.noConfusion h
      · injection h with h'
        rw [← h']
  · intro name path e h
    unfold FallbackJS at h
    split at h
    · exact Except.noConfusion h
    · split at h
      · exact Except.noConfusion h
      · injection h with h'
        rw [← h']
  · intro c hc hpat
    cases hfind : router.children.find? (fun c => patternTest c.pattern loc.pathname) with
    | none =>
      have := List.find?_eq_none.mp hfind c hc
      rw [hpat] at this
      simp [patternTest, execPat, parsePath, segsOf, splitOnCharD, splitAux, execSegs] at this
    | some a =>
      exact ⟨⟨a, jsMerge (zipParams (getPathParamNames a.path)
          ((execPat a.pattern loc.pathname).getD [])) (parseQS loc.search), loc.hash⟩,
        by simp [locationToRoute, hfind]⟩

/-- C1 witness: on the concrete scenario router, the location `/item/123`
resolves to the item route, which sits at an index before which nothing
matches. -/
theorem claim_C1_witness :
    ∃ i, ∃ hi : i < exRouter.children.length,
      exRouter.children.get ⟨i, hi⟩ = exEntryItem ∧
      patternTest exEntryItem.pattern "/item/123" = true ∧
      ∀ j (hj : j < exRouter.children.length), j < i →
        patternTest (exRouter.children.get ⟨j, hj⟩).pattern "/item/123" = false := by
  have h := (claim_C1 exRouter ⟨"/item/123", "", ""⟩).1
    ⟨exEntryItem, [("itemId", "123")], ""⟩ rfl
  exact h

/-- C2: routeToLocation looks up the first Route child (Redirects and
Fallbacks are skipped by the `instanceof Route` test) whose name strictly
equals the requested name; it fails with a RouteMatchError condition when no
such Route exists or when filling the path template fails, and otherwise
returns the filled pathname, the stringified non-path parameters as search,
and the hash.  First-match lookup makes a later Route with a duplicate name
unreachable for outbound translation. -/
theorem claim_C2 (router : RouterT) (name : JSName) (params : Params) (hash : String) :
    ((∀ c ∈ router.children, (c.kind == EntryKind.route && nameEq c.name name) = false) →
      routeToLocation router name params hash =
        Except.error (RtErr.routeMatchError "No route matching route name")) ∧
    (∀ res, routeToLocation router name params hash = Except.ok res →
      ∃ i, ∃ hi : i < router.children.length,
        let r := router.children.get ⟨i, hi⟩
        (r.kind == EntryKind.route && nameEq r.name name) = true ∧
        (∀ j (hj : j < router.children.length), j < i →
          ((router.children.get ⟨j, hj⟩).kind == EntryKind.route &&
            nameEq (router.children.get ⟨j, hj⟩).name name) = false) ∧
        fillPath r.path (keyFilter params (fun k => (getPathParamNames r.path).contains k)) =
          Except.ok res.pathname ∧
        res.search =
          stringifyQS (keyFilter params (fun k => !((getPathParamNames r.path).contains k))) ∧
        res.hash = hash) ∧
    (∀ r, router.children.find?
        (fun c => c.kind == EntryKind.route && nameEq c.name name) = some r →
      ∀ msg, fillPath r.path
          (keyFilter params (fun k => (getPathParamNames r.path).contains k)) =
          Except.error msg →
      routeToLocation router name params hash =
        Except.error (RtErr.routeMatchError msg)) := by
  refine ⟨?_, ?_, ?_⟩
  · intro hall
    have hfind : router.children.find?
        (fun c => c.kind == EntryKind.route && nameEq c.name name) = none := by
      apply List.find?_eq_none.mpr
      intro c hc
      simp [hall c hc]
    simp [routeToLocation, hfind]
  · intro res h
    cases hfind : router.children.find?
        (fun c => c.kind == EntryKind.route && nameEq c.name name) with
    | none => simp [routeToLocation, hfind] at h
    | some r =>
      obtain ⟨i, hi, hget, hpr, hprev⟩ := find?_first _ _ _ hfind
      simp only [routeToLocation, hfind] at h
      cases hfill : fillPath r.path
          (keyFilter params (fun k => (getPathParamNames r.path).contains k)) with
      | error msg => rw [hfill] at h; exact Except.noConfusion h
      | ok pn =>
        rw [hfill] at h
        injection h with h'
        refine ⟨i, hi, ?_⟩
        rw [hget]
        refine ⟨hpr, hprev, ?_, ?_, ?_⟩
        · rw [hfill, ← h']
        · rw [← h']
        · rw [← h']
  · intro r hfind msg hfill
    simp only [routeToLocation, hfind]
    rw [hfill]

/-- C2 witness: on the scenario router, `routeToLocation` for name `item`
with params `itemId=123, sort=asc` succeeds with pathname `/item/123` and
search `sort=asc`, found at a first matching index. -/
theorem claim_C2_witness :
    ∃ i, ∃ hi : i < exRouter.children.length,
      let r := exRouter.children.get ⟨i, hi⟩
      (r.kind == EntryKind.route && nameEq r.name (JSName.str "item")) = true ∧
      (∀ j (hj : j < exRouter.children.length), j < i →
        ((exRouter.children.get ⟨j, hj⟩).kind == EntryKind.route &&
          nameEq (exRouter.children.get ⟨j, hj⟩).name (JSName.str "item")) = false) ∧
      fillPath r.path (keyFilter [("itemId", "123"), ("sort", "asc")]
          (fun k => (getPathParamNames r.path).contains k)) =
        Except.ok (Location.pathname ⟨"/item/123", "sort=asc", ""⟩) ∧
      Location.search ⟨"/item/123", "sort=asc", ""⟩ =
        stringifyQS (keyFilter [("itemId", "123"), ("sort", "asc")]
          (fun k => !((getPathParamNames r.path).contains k))) ∧
      Location.hash ⟨"/item/123", "sort=asc", ""⟩ = "" := by
  exact (claim_C2 exRouter (JSName.str "item") [("itemId", "123"), ("sort", "asc")] "").2.1
    ⟨"/item/123", "sort=asc", ""⟩ rfl

/-- C5 counterexample: constructing a Scope over a router containing a
Fallback does not fail; `Scope('/contact', Router([Fallback('contactNotFound')]))`
succeeds and rewrites the Fallback through the Fallback constructor, its
prefix pattern becoming the scope base. -/
theorem claim_C5_counterexample :
    FallbackJS (CVal.str "contactNotFound") CVal.undef =
      Except.ok ⟨EntryKind.fallback, JSName.str "contactNotFound", "", ⟨"", true⟩⟩ ∧
    RouterJS (CVal.arrC [CVal.entryC
        ⟨EntryKind.fallback, JSName.str "contactNotFound", "", ⟨"", true⟩⟩]) =
      Except.ok ⟨[⟨EntryKind.fallback, JSName.str "contactNotFound", "", ⟨"", true⟩⟩]⟩ ∧
    ScopeJS (CVal.str "/contact")
        (CVal.routerC ⟨[⟨EntryKind.fallback, JSName.str "contactNotFound", "", ⟨"", true⟩⟩]⟩) =
      Except.ok ⟨"/contact",
        [⟨EntryKind.fallback, JSName.str "contactNotFound", "", ⟨"/contact", true⟩⟩]⟩ :=
  ⟨rfl, rfl, rfl⟩

/-- C5 amended: Scope construction never fails because of a Fallback child;
for every string base and Router it succeeds, and each Fallback child is
rebuilt by the Fallback constructor from `base + child.path`, so it keeps an
empty stored path and a prefix pattern extended with the base (Scope does not
reject Fallbacks, it prefix-rewrites them). -/
theorem claim_C5_amended (b : String) (r : RouterT) :
    ∃ sc, ScopeJS (CVal.str b) (CVal.routerC r) = Except.ok sc ∧
      sc.base = b ∧
      sc.children.length = r.children.length ∧
      ∀ i e, r.children.get? i = some e → e.kind = EntryKind.fallback →
        sc.children.get? i =
          some ⟨EntryKind.fallback, e.name, "", ⟨b ++ e.path, true⟩⟩ := by
  refine ⟨⟨b, r.children.map (scopeChild b)⟩, rfl, rfl, by simp, ?_⟩
  intro i e hget hkind
  show (r.children.map (scopeChild b)).get? i = _
  rw [List.get?_map, hget]
  simp [scopeChild, hkind]

/-- C5 amended witness: the rewrite at the concrete `/contact` scope. -/
theorem claim_C5_amended_witness :
    ∃ sc, ScopeJS (CVal.str "/contact")
        (CVal.routerC ⟨[⟨EntryKind.fallback, JSName.str "nf", "", ⟨"", true⟩⟩]⟩) =
        Except.ok sc ∧
      sc.children.get? 0 =
        some ⟨EntryKind.fallback, JSName.str "nf", "", ⟨"/contact", true⟩⟩ := by
  obtain ⟨sc, hok, _, _, hmap⟩ :=
    claim_C5_amended "/contact" ⟨[⟨EntryKind.fallback, JSName.str "nf", "", ⟨"", true⟩⟩]⟩
  exact ⟨sc, hok, hmap 0 _ rfl rfl⟩

/-- A value acceptable as a Router child: an already-constructed leaf entry
or a Scope. -/
def validChild (x : CVal) : Prop :=
  (∃ e, x = CVal.entryC e) ∨ (∃ sc, x = CVal.scopeC sc)

/-- The Router flattening reduce succeeds exactly when every child is a leaf
entry or a Scope. -/
theorem routerFold_ok_iff :
    ∀ (xs : List CVal) (acc : List Entry),
      (∃ es, routerFold xs acc = Except.ok es) ↔ ∀ x ∈ xs, validChild x := by
  intro xs
  induction xs with
  | nil => intro acc; simp [routerFold]
  | cons x xs ih =>
    intro acc
    cases x with
    | entryC e =>
      simp only [routerFold, List.mem_cons]
      rw [ih]
      constructor
      · intro h y hy
        cases hy with
        | inl h' => exact h' ▸ Or.inl ⟨e, rfl⟩
        | inr h' => exact h y h'
      · intro h y hy
        exact h y (Or.inr hy)
    | scopeC sc =>
      simp only [routerFold, List.mem_cons]
      rw [ih]
      constructor
      · intro h y hy
        cases hy with
        | inl h' => exact h' ▸ Or.inr ⟨sc, rfl⟩
        | inr h' => exact h y h'
      · intro h y hy
        exact h y (Or.inr hy)
    | undef =>
      simp only [routerFold]
      constructor
      · rintro ⟨es, h⟩; exact Except.noConfusion h
      · intro h
        rcases h CVal.undef (List.mem_cons_self _ _) with ⟨e, he⟩ | ⟨sc2, he⟩ <;>
          exact CVal.noConfusion he
    | str s =>
      simp only [routerFold]
      constructor
      · rintro ⟨es, h⟩; exact Except.noConfusion h
      · intro h
        rcases h (CVal.str s) (List.mem_cons_self _ _) with ⟨e, he⟩ | ⟨sc2, he⟩ <;>
          exact CVal.noConfusion he
    | num n =>
      simp only [routerFold]
      constructor
      · rintro ⟨es, h⟩; exact Except.noConfusion h
      · intro h
        rcases h (CVal.num n) (List.mem_cons_self _ _) with ⟨e, he⟩ | ⟨sc2, he⟩ <;>
          exact CVal.noConfusion he
    | boolV b =>
      simp only [routerFold]
      constructor
      · rintro ⟨es, h⟩; exact Except.noConfusion h
      · intro h
        rcases h (CVal.boolV b) (List.mem_cons_self _ _) with ⟨e, he⟩ | ⟨sc2, he⟩ <;>
          exact CVal.noConfusion he
    | arrC ys =>
      simp only [routerFold]
      constructor
      · rintro ⟨es, h⟩; exact Except.noConfusion h
      · intro h
        rcases h (CVal.arrC ys) (List.mem_cons_self _ _) with ⟨e, he⟩ | ⟨sc2, he⟩ <;>
          exact CVal.noConfusion he
    | routerC r =>
      simp only [routerFold]
      constructor
      · rintro ⟨es, h⟩; exact Except.noConfusion h
      · intro h
        rcases h (CVal.routerC r) (List.mem_cons_self _ _) with ⟨e, he⟩ | ⟨sc2, he⟩ <;>
          exact CVal.noConfusion he

/-- C9: every construction function validates its arguments eagerly at
construction time: Route and Fallback succeed exactly when the name is
defined and the path is a string (or defaulted), Redirect likewise for its
target, Scope exactly when the base is a string and the second argument an
actual Router, Router exactly when given an Array whose members are all leaf
entries or Scopes; in particular a Router child inside a Router makes
construction fail immediately with a type-error condition. -/
theorem claim_C9 :
    (∀ name path, (∃ e, RouteJS name path = Except.ok e) ↔
      (name ≠ CVal.undef ∧ pathArg path ≠ none)) ∧
    (∀ target path, (∃ e, RedirectJS target path = Except.ok e) ↔
      (target ≠ CVal.undef ∧ pathArg path ≠ none)) ∧
    (∀ name path, (∃ e, FallbackJS name path = Except.ok e) ↔
      (name ≠ CVal.undef ∧ pathArg path ≠ none)) ∧
    (∀ base router, (∃ sc, ScopeJS base router = Except.ok sc) ↔
      ((∃ b, base = CVal.str b) ∧ (∃ r, router = CVal.routerC r))) ∧
    (∀ children, (∃ r, RouterJS children = Except.ok r) ↔
      (∃ xs, children = CVal.arrC xs ∧ ∀ x ∈ xs, validChild x)) ∧
    (∀ xs r0, CVal.routerC r0 ∈ xs →
      ∃ msg, RouterJS (CVal.arrC xs) = Except.error msg) := by
  refine ⟨?_, ?_, ?_, ?_, ?_, ?_⟩
  · intro name path
    cases name <;> cases path <;> simp [RouteJS, jsNameOf, pathArg]
  · intro target path
    cases target <;> cases path <;> simp [RedirectJS, jsNameOf, pathArg]
  · intro name path
    cases name <;> cases path <;> simp [FallbackJS, jsNameOf, pathArg]
  · intro base router
    cases base <;> cases router <;> simp [ScopeJS]
  · intro children
    cases children with
    | arrC xs =>
      simp only [RouterJS]
      constructor
      · rintro ⟨r, hr⟩
        refine ⟨xs, rfl, ?_⟩
        apply (routerFold_ok_iff xs []).mp
        cases h : routerFold xs [] with
        | ok es => exact ⟨es, rfl⟩
        | error msg => rw [h] at hr; exact Except.noConfusion hr
      · rintro ⟨ys, hys, hall⟩
        obtain rfl : xs = ys := by injection hys
        obtain ⟨es, hes⟩ := (routerFold_ok_iff xs []).mpr hall
        exact ⟨⟨es⟩, by rw [hes]⟩
    | undef => simp [RouterJS]
    | str s => simp [RouterJS]
    | num n => simp [RouterJS]
    | boolV b => simp [RouterJS]
    | entryC e => simp [RouterJS]
    | scopeC sc => simp [RouterJS]
    | routerC r => simp [RouterJS]
  · intro xs r0 hmem
    have hnotall : ¬ ∀ x ∈ xs, validChild x := by
      intro hall
      rcases hall (CVal.routerC r0) hmem with ⟨e, he⟩ | ⟨sc, he⟩ <;>
        exact CVal.noConfusion he
    cases h : routerFold xs [] with
    | ok es => exact absurd ((routerFold_ok_iff xs []).mp ⟨es, h⟩) hnotall
    | error msg => exact ⟨msg, by simp [RouterJS, h]⟩

/-- C9 witness: `Route('test')` (path defaulted) constructs, and a Router
nested directly in a Router fails construction. -/
theorem claim_C9_witness :
    (∃ e, RouteJS (CVal.str "test") CVal.undef = Except.ok e) ∧
    (∃ msg, RouterJS (CVal.arrC [CVal.routerC ⟨[]⟩]) = Except.error msg) := by
  constructor
  · exact (claim_C9.1 (CVal.str "test") CVal.undef).mpr ⟨by simp, by simp [pathArg]⟩
  · exact claim_C9.2.2.2.2.2 [CVal.routerC ⟨[]⟩] ⟨[]⟩ (List.mem_singleton.mpr rfl)

/-- C6: when outbound translation of a PUSH / REPLACE / OPEN intent fails,
the middleware branch catches the RouteMatchError locally and performs
exactly one effect, a route-not-matched dispatch carrying the error, route,
params and hash; no push, replace or open effect is emitted, and applying
the effects leaves the history (hence the location) unchanged. -/
theorem claim_C6 (router : RouterT) (k : NavKind) (route : JSName) (params : Params)
    (hash : String) (err : RtErr)
    (h : routeToLocation router route params hash = Except.error err) :
    handleAbsolute router k route params hash =
      [Effect.dispatchRouteNotMatched err route params hash] ∧
    ∀ hist : Hist, applyEffects hist (handleAbsolute router k route params hash) = hist := by
  have h1 : handleAbsolute router k route params hash =
      [Effect.dispatchRouteNotMatched err route params hash] := by
    simp [handleAbsolute, h]
  refine ⟨h1, fun hist => ?_⟩
  rw [h1]
  rfl

/-- C6 witness: pushing the unknown route name `missing` on the scenario
router dispatches a route-not-matched notification and leaves a concrete
history state unchanged. -/
theorem claim_C6_witness :
    handleAbsolute exRouter NavKind.pushK (JSName.str "missing") [] "" =
      [Effect.dispatchRouteNotMatched (RtErr.routeMatchError "No route matching route name")
        (JSName.str "missing") [] ""] ∧
    applyEffects ⟨[⟨"/", "", ""⟩], 0⟩
        (handleAbsolute exRouter NavKind.pushK (JSName.str "missing") [] "") =
      ⟨[⟨"/", "", ""⟩], 0⟩ := by
  have h := claim_C6 exRouter NavKind.pushK (JSName.str "missing") [] ""
    (RtErr.routeMatchError "No route matching route name") rfl
  exact ⟨h.1, h.2 ⟨[⟨"/", "", ""⟩], 0⟩⟩

/-- C7: in one history-listener step, a location resolving to a Redirect
entry produces exactly one effect, a history replace with the target
location computed by routeToLocation from the redirect target name and the
extracted params and hash, and no route-changed dispatch; and every
route-changed dispatch the listener ever emits carries the name of the
matched non-Redirect entry, so a Redirect match never supplies the route
field of a route-changed notification. -/
theorem claim_C7 (router : RouterT) (previous : Option RPayload) (loc : Location)
    (effects : List Effect)
    (h : historyListener router previous loc = Except.ok effects) :
    (∀ res, locationToRoute router loc = Except.ok res →
      res.route.kind = EntryKind.redirect →
      ∃ target, routeToLocation router res.route.name res.params res.hash = Except.ok target ∧
        effects = [Effect.replaceLoc target] ∧
        ∀ r p hh pv, Effect.dispatchChanged r p hh pv ∉ effects) ∧
    (∀ r p hh pv, Effect.dispatchChanged r p hh pv ∈ effects →
      ∃ res, locationToRoute router loc = Except.ok res ∧
        res.route.kind ≠ EntryKind.redirect ∧
        r = res.route.name ∧ p = res.params ∧ hh = res.hash ∧ pv = previous) := by
  cases hloc : locationToRoute router loc with
  | error e =>
    simp only [historyListener, hloc] at h
    injection h with h'
    constructor
    · intro res hres
      exact Except.noConfusion hres
    · intro r p hh pv hmem
      rw [← h'] at hmem
      simp at hmem
  | ok res0 =>
    simp only [historyListener, hloc] at h
    by_cases hk : res0.route.kind = EntryKind.redirect
    · rw [if_pos hk] at h
      cases htgt : routeToLocation router res0.route.name res0.params res0.hash with
      | error e => rw [htgt] at h; exact Except.noConfusion h
      | ok target =>
        rw [htgt] at h
        injection h with h'
        constructor
        · intro res hres hkind
          injection hres with hres'
          subst hres'
          exact ⟨target, htgt, h'.symm, by intro r p hh pv; rw [← h']; simp⟩
        · intro r p hh pv hmem
          rw [← h'] at hmem
          simp at hmem
    · rw [if_neg hk] at h
      injection h with h'
      constructor
      · intro res hres hkind
        injection hres with hres'
        subst hres'
        exact absurd hkind hk
      · intro r p hh pv hmem
        rw [← h'] at hmem
        simp at hmem
        obtain ⟨h1, h2, h3, h4⟩ := hmem
        exact ⟨res0, rfl, hk, h1, h2, h3, h4⟩

/-- C7 witness: resolving `/product/123` on the scenario router replaces the
location with `/item/123` and dispatches nothing. -/
theorem claim_C7_witness :
    historyListener exRouter none ⟨"/product/123", "", ""⟩ =
      Except.ok [Effect.replaceLoc ⟨"/item/123", "", ""⟩] ∧
    Effect.dispatchChanged (JSName.str "item") [("itemId", "123")] "" none ∉
      [Effect.replaceLoc ⟨"/item/123", "", ""⟩] := by
  have h := (claim_C7 exRouter none ⟨"/product/123", "", ""⟩
      [Effect.replaceLoc ⟨"/item/123", "", ""⟩] rfl).1
    ⟨exEntryProduct, [("itemId", "123")], ""⟩ rfl rfl
  obtain ⟨target, ht, heq, hnm⟩ := h
  exact ⟨rfl, hnm _ _ _ _⟩

/-- C8: on the router `Router([Route('home','/'), Route('item','/item/:itemId'),
Redirect('item','/product/:itemId'), Fallback('notFound')])`, dispatching
`push('item', {itemId:'123', sort:'asc'})` emits one history push whose
stored location has pathname `/item/123` and search `?sort=asc`. -/
theorem claim_C8 :
    RouteJS (CVal.str "home") (CVal.str "/") = Except.ok exEntryHome ∧
    RouteJS (CVal.str "item") (CVal.str "/item/:itemId") = Except.ok exEntryItem ∧
    RedirectJS (CVal.str "item") (CVal.str "/product/:itemId") = Except.ok exEntryProduct ∧
    FallbackJS (CVal.str "notFound") CVal.undef = Except.ok exEntryNotFound ∧
    RouterJS (CVal.arrC [CVal.entryC exEntryHome, CVal.entryC exEntryItem,
        CVal.entryC exEntryProduct, CVal.entryC exEntryNotFound]) = Except.ok exRouter ∧
    handleAbsolute exRouter NavKind.pushK (JSName.str "item")
        [("itemId", "123"), ("sort", "asc")] "" =
      [Effect.pushLoc ⟨"/item/123", "sort=asc", ""⟩] ∧
    currentLoc (applyEffects ⟨[⟨"/", "", ""⟩], 0⟩
        (handleAbsolute exRouter NavKind.pushK (JSName.str "item")
          [("itemId", "123"), ("sort", "asc")] "")) =
      ⟨"/item/123", "?sort=asc", ""⟩ :=
  ⟨rfl, rfl, rfl, rfl, rfl, rfl, rfl⟩

/-! ## Parameter-object lemmas -/

/-- A key the object does not have looks up to nothing. -/
theorem lookupP_eq_none_of_hasKey_false (ps : Params) (k : String)
    (h : hasKey ps k = false) : lookupP ps k = none := by
  induction ps with
  | nil => rfl
  | cons p ps ih =>
    simp only [hasKey, List.any_cons, Bool.or_eq_false_iff] at h
    simp only [lookupP, List.lookup]
    have hk : (k == p.1) = false := by
      cases hbe : k == p.1 with
      | false => rfl
      | true =>
        have := eq_of_beq hbe
        subst this
        simpa using h.1
    rw [hk]
    exact ih (by simpa [hasKey] using h.2)

/-- Lookup in an appended object prefers the left part. -/
theorem lookupP_append_left (a b : Params) (k : String) (v : String)
    (h : lookupP a k = some v) : lookupP (a ++ b) k = some v := by
  induction a with
  | nil => exact Option.noConfusion h
  | cons p ps ih =>
    simp only [lookupP, List.lookup] at h ⊢
    cases hk : k == p.1 with
    | true => rw [hk] at h; simpa using h
    | false => rw [hk] at h; exact ih h

/-- Lookup in an appended object falls through when the left part lacks the
key. -/
theorem lookupP_append_right (a b : Params) (k : String)
    (h : lookupP a k = none) : lookupP (a ++ b) k = lookupP b k := by
  induction a with
  | nil => rfl
  | cons p ps ih =>
    simp only [lookupP, List.lookup] at h ⊢
    cases hk : k == p.1 with
    | true => rw [hk] at h; exact Option.noConfusion h
    | false => rw [hk] at h; exact ih h

/-- Replacement in place: mapping the overwrite function over an object that
has the key makes the key look up to the new value. -/
theorem lookupP_map_replace (ps : Params) (k v : String) (h : hasKey ps k = true) :
    lookupP (ps.map fun p => if p.1 == k then (k, v) else p) k = some v := by
  induction ps with
  | nil => simp [hasKey] at h
  | cons p ps ih =>
    by_cases hpk : p.1 = k
    · subst hpk
      rw [List.map_cons, if_pos (beq_self_eq_true p.1)]
      simp [lookupP, List.lookup]
    · have hb : (p.1 == k) = false := by
        simpa using hpk
      have hkb : (k == p.1) = false := by
        simpa using Ne.symm hpk
      simp only [List.map_cons, hb, Bool.false_eq_true, if_false]
      simp only [lookupP, List.lookup, hkb]
      apply ih
      simpa [hasKey, hb] using h

/-- Replacement in place leaves other keys alone. -/
theorem lookupP_map_replace_ne (ps : Params) (k v k' : String) (hne : k' ≠ k) :
    lookupP (ps.map fun p => if p.1 == k then (k, v) else p) k' = lookupP ps k' := by
  induction ps with
  | nil => rfl
  | cons p ps ih =>
    by_cases hpk : p.1 = k
    · have hkb : (k' == p.1) = false := by
        simp [hpk]
        simpa using hne
      simp only [List.map_cons, hpk, beq_self_eq_true, if_true]
      simp only [lookupP, List.lookup, hkb]
      have hkb2 : (k' == k) = false := by simpa using hne
      rw [hkb2]
      exact ih
    · have hb : (p.1 == k) = false := by simpa using hpk
      simp only [List.map_cons, hb, Bool.false_eq_true, if_false]
      simp only [lookupP, List.lookup]
      cases hk : k' == p.1 with
      | true => rfl
      | false => exact ih

/-- Assigning a key makes it look up to the assigned value. -/
theorem lookupP_objInsert_self (ps : Params) (k v : String) :
    lookupP (objInsert ps k v) k = some v := by
  unfold objInsert
  cases hhk : hasKey ps k with
  | false =>
    rw [if_neg (by simp)]
    rw [lookupP_append_right _ _ _ (lookupP_eq_none_of_hasKey_false ps k hhk)]
    simp [lookupP, List.lookup]
  | true =>
    rw [if_pos rfl]
    exact lookupP_map_replace ps k v hhk

/-- Assigning a key leaves other keys alone. -/
theorem lookupP_objInsert_ne (ps : Params) (k v k' : String) (hne : k' ≠ k) :
    lookupP (objInsert ps k v) k' = lookupP ps k' := by
  unfold objInsert
  cases hhk : hasKey ps k with
  | false =>
    rw [if_neg (by simp)]
    cases hl : lookupP ps k' with
    | some w => rw [lookupP_append_left _ _ _ _ hl]
    | none =>
      rw [lookupP_append_right _ _ _ hl]
      have hb : (k' == k) = false := by simpa using hne
      simp [lookupP, List.lookup, hb]
  | true =>
    rw [if_pos rfl]
    exact lookupP_map_replace_ne ps k v k' hne

/-- The key list is untouched by in-place replacement. -/
theorem keysP_map_replace (ps : Params) (k v : String) :
    keysP (ps.map fun p => if p.1 == k then (k, v) else p) = keysP ps := by
  induction ps with
  | nil => rfl
  | cons p ps ih =>
    by_cases hpk : p.1 = k
    · subst hpk
      rw [List.map_cons, if_pos (beq_self_eq_true p.1)]
      simpa [keysP] using congrArg (List.cons p.1) ih
    · have hb : (p.1 == k) = false := by simpa using hpk
      rw [List.map_cons, hb]
      simpa [keysP] using congrArg (List.cons p.1) ih

/-- The key list after assignment: unchanged if the key was present,
extended by the key otherwise. -/
theorem keysP_objInsert (ps : Params) (k v : String) :
    keysP (objInsert ps k v) =
      if hasKey ps k then keysP ps else keysP ps ++ [k] := by
  unfold objInsert
  cases hhk : hasKey ps k with
  | false => simp [keysP]
  | true =>
    rw [if_pos rfl, if_pos rfl]
    exact keysP_map_replace ps k v

/-- Key membership and `hasKey` agree. -/
theorem hasKey_iff_mem (ps : Params) (k : String) :
    hasKey ps k = true ↔ k ∈ keysP ps := by
  simp only [hasKey, keysP, List.any_eq_true, List.mem_map]
  constructor
  · rintro ⟨p, hp, hbe⟩
    exact ⟨p, hp, eq_of_beq hbe⟩
  · rintro ⟨p, hp, rfl⟩
    exact ⟨p, hp, beq_self_eq_true _⟩

/-- `hasKey` distributes over append as a Boolean or. -/
theorem hasKey_append (a b : Params) (k : String) :
    hasKey (a ++ b) k = (hasKey a k || hasKey b k) := by
  simp [hasKey]

/-- Assignment preserves keys being duplicate-free. -/
theorem nodup_keysP_objInsert (ps : Params) (k v : String)
    (h : (keysP ps).Nodup) : (keysP (objInsert ps k v)).Nodup := by
  rw [keysP_objInsert]
  cases hhk : hasKey ps k with
  | true => simpa using h
  | false =>
    have hk : k ∉ keysP ps := fun hmem =>
      by simp [(hasKey_iff_mem ps k).mpr hmem] at hhk
    simp [List.nodup_append, h, hk]

/-- A fold of assignments keeps keys duplicate-free. -/
theorem nodup_keysP_foldl_objInsert {α : Type _} (f g : α → String) :
    ∀ (l : List α) (acc : Params), (keysP acc).Nodup →
      (keysP (l.foldl (fun ps x => objInsert ps (f x) (g x)) acc)).Nodup := by
  intro l
  induction l with
  | nil => intro acc h; exact h
  | cons x xs ih =>
    intro acc h
    exact ih _ (nodup_keysP_objInsert _ _ _ h)

/-- The parsed query string has duplicate-free keys. -/
theorem parseQS_nodupKeys (s : String) : (keysP (parseQS s)).Nodup := by
  unfold parseQS
  exact nodup_keysP_foldl_objInsert
    (fun piece => (parsePair piece).1) (fun piece => (parsePair piece).2) _ [] List.nodup_nil

/-- Lookup in a spread-merge: an entry of the right object wins, anything
else falls through to the left object (right keys duplicate-free). -/
theorem lookupP_jsMerge (b : Params) (hnd : (keysP b).Nodup) :
    ∀ (a : Params) (k : String),
      lookupP (jsMerge a b) k =
        match lookupP b k with
        | some v => some v
        | none => lookupP a k := by
  induction b with
  | nil => intro a k; rfl
  | cons p b' ih =>
    intro a k
    have hnd' : (keysP b').Nodup := by
      simpa [keysP] using hnd.of_cons
    have hstep : jsMerge a (p :: b') = jsMerge (objInsert a p.1 p.2) b' := rfl
    rw [hstep, ih hnd' _ k]
    by_cases hk : k = p.1
    · subst hk
      have hknotb' : lookupP b' p.1 = none := by
        apply lookupP_eq_none_of_hasKey_false
        cases hhk : hasKey b' p.1 with
        | false => rfl
        | true =>
          have hmem : p.1 ∈ keysP b' := (hasKey_iff_mem b' p.1).mp hhk
          have hnot : ¬ p.1 ∈ keysP b' :=
            (List.nodup_cons.mp (show (p.1 :: keysP b').Nodup by
              simpa [keysP] using hnd)).1
          exact absurd hmem hnot
      rw [hknotb']
      have hhead : lookupP (p :: b') p.1 = some p.2 := by
        simp [lookupP, List.lookup]
      rw [hhead, lookupP_objInsert_self]
    · have hhead : lookupP (p :: b') k = lookupP b' k := by
        have hb : (k == p.1) = false := by simpa using hk
        simp [lookupP, List.lookup, hb]
      rw [hhead, lookupP_objInsert_ne _ _ _ _ hk]

/-- Merging an object with fresh, duplicate-free keys is concatenation. -/
theorem jsMerge_append :
    ∀ (b a : Params), (∀ x ∈ b, hasKey a x.1 = false) → (keysP b).Nodup →
      jsMerge a b = a ++ b := by
  intro b
  induction b with
  | nil => intro a _ _; simp [jsMerge]
  | cons p b' ih =>
    intro a hfresh hnd
    have hstep : jsMerge a (p :: b') = jsMerge (objInsert a p.1 p.2) b' := rfl
    have hfr : hasKey a p.1 = false := hfresh p (List.mem_cons_self _ _)
    have hins : objInsert a p.1 p.2 = a ++ [p] := by
      unfold objInsert
      rw [if_neg (by simp [hfr])]
    have hnd' : (keysP b').Nodup := by simpa [keysP] using hnd.of_cons
    have hp1 : p.1 ∉ keysP b' :=
      (List.nodup_cons.mp (show (p.1 :: keysP b').Nodup by
        simpa [keysP] using hnd)).1
    rw [hstep, hins, ih (a ++ [p]) ?_ hnd']
    · simp
    · intro x hx
      rw [hasKey_append]
      have h1 : hasKey a x.1 = false := hfresh x (List.mem_cons_of_mem _ hx)
      have h2 : hasKey [p] x.1 = false := by
        have hne : p.1 ≠ x.1 := by
          intro he
          exact hp1 (by rw [he]; exact List.mem_map.mpr ⟨x, hx, rfl⟩)
        simp [hasKey, hne]
      rw [h1, h2]
      rfl

/-- `hasKey` after assignment: the old keys plus the assigned one. -/
theorem hasKey_objInsert (ps : Params) (k v k' : String) :
    hasKey (objInsert ps k v) k' = (hasKey ps k' || (k' == k)) := by
  by_cases hne : k' = k
  · subst hne
    have h1 : hasKey (objInsert ps k' v) k' = true := by
      cases hhk : hasKey (objInsert ps k' v) k' with
      | true => rfl
      | false =>
        have := lookupP_eq_none_of_hasKey_false _ _ hhk
        rw [lookupP_objInsert_self] at this
        exact Option.noConfusion this
    rw [h1]
    simp
  · have hbe : (k' == k) = false := by simpa using hne
    rw [hbe, Bool.or_false]
    have hmemiff : (k' ∈ keysP (objInsert ps k v)) ↔ k' ∈ keysP ps := by
      rw [keysP_objInsert]
      cases hasKey ps k with
      | true => simp
      | false => simp [hne]
    cases hk' : hasKey ps k' with
    | true =>
      exact (hasKey_iff_mem _ _).mpr (hmemiff.mpr ((hasKey_iff_mem _ _).mp hk'))
    | false =>
      cases hl : hasKey (objInsert ps k v) k' with
      | false => rfl
      | true =>
        have := hmemiff.mp ((hasKey_iff_mem _ _).mp hl)
        rw [(hasKey_iff_mem _ _).mpr this] at hk'
        exact hk'

/-- A key present in the zipped path parameters comes from a placeholder
name whose positional capture is present: absent captures are skipped. -/
theorem hasKey_zipParamsAux :
    ∀ (ns : List String) (vs : List (Option String)) (acc : Params) (k : String),
      hasKey (zipParamsAux acc ns vs) k = true →
      hasKey acc k = true ∨
        ∃ i v, ns.get? i = some k ∧ vs.getD i none = some v := by
  intro ns
  induction ns with
  | nil => intro vs acc k h; exact Or.inl h
  | cons n ns' ih =>
    intro vs acc k h
    have h' := ih vs.tail
      (match vs.head? with
        | some (some v) => objInsert acc n v
        | _ => acc) k h
    rcases h' with hacc' | ⟨i, v, hget, hval⟩
    · cases hv : vs.head? with
      | none =>
        rw [hv] at hacc'
        exact Or.inl hacc'
      | some ov =>
        cases ov with
        | none =>
          rw [hv] at hacc'
          exact Or.inl hacc'
        | some v0 =>
          rw [hv] at hacc'
          rw [hasKey_objInsert] at hacc'
          cases hk : hasKey acc k with
          | true => exact Or.inl rfl
          | false =>
            rw [hk, Bool.false_or] at hacc'
            refine Or.inr ⟨0, v0, ?_, ?_⟩
            · simp [eq_of_beq hacc']
            · cases vs with
              | nil => exact Option.noConfusion hv
              | cons w ws =>
                have hv' : w = some v0 := by
                  simpa using hv
                simp [hv']
    · refine Or.inr ⟨i + 1, v, by simpa using hget, ?_⟩
      cases vs with
      | nil => simp at hval
      | cons w ws => simpa using hval

/-- C4: on a successful inbound match the params mapping is the query
parameters spread over the zipped path captures: it equals that merge, a key
present in the parsed query string always looks up to its query value
(query wins on collision), a key absent from the query string looks up to
its path capture, and every key of the zipped path parameters comes from a
placeholder name whose positional capture is present (absent captures are
skipped). -/
theorem claim_C4 (router : RouterT) (loc : Location) (res : MatchResult)
    (h : locationToRoute router loc = Except.ok res) :
    res.params =
      jsMerge (zipParams (getPathParamNames res.route.path)
        ((execPat res.route.pattern loc.pathname).getD [])) (parseQS loc.search) ∧
    (∀ k v, lookupP (parseQS loc.search) k = some v → lookupP res.params k = some v) ∧
    (∀ k, lookupP (parseQS loc.search) k = none →
      lookupP res.params k =
        lookupP (zipParams (getPathParamNames res.route.path)
          ((execPat res.route.pattern loc.pathname).getD [])) k) ∧
    (∀ k, hasKey (zipParams (getPathParamNames res.route.path)
        ((execPat res.route.pattern loc.pathname).getD [])) k = true →
      ∃ i v, (getPathParamNames res.route.path).get? i = some k ∧
        ((execPat res.route.pattern loc.pathname).getD []).getD i none = some v) := by
  cases hfind : router.children.find? (fun c => patternTest c.pattern loc.pathname) with
  | none => simp [locationToRoute, hfind] at h
  | some a =>
    simp only [locationToRoute, hfind] at h
    injection h with h'
    subst h'
    refine ⟨rfl, ?_, ?_, ?_⟩
    · intro k v hk
      rw [lookupP_jsMerge (parseQS loc.search) (parseQS_nodupKeys loc.search), hk]
    · intro k hk
      rw [lookupP_jsMerge (parseQS loc.search) (parseQS_nodupKeys loc.search), hk]
    · intro k hk
      have := hasKey_zipParamsAux (getPathParamNames a.path)
        ((execPat a.pattern loc.pathname).getD []) [] k hk
      rcases this with habs | hok
      · simp [hasKey] at habs
      · exact hok

/-- C4 witness: on the scenario router at `/item/123?itemId=999`, the query
value wins the collision on `itemId`. -/
theorem claim_C4_witness :
    lookupP (MatchResult.params ⟨exEntryItem, [("itemId", "999")], ""⟩) "itemId" =
      some "999" := by
  have h := (claim_C4 exRouter ⟨"/item/123", "?itemId=999", ""⟩
      ⟨exEntryItem, [("itemId", "999")], ""⟩ rfl).2.1 "itemId" "999" rfl
  exact h

/-- C10: a constructed Fallback stores the empty string as its path while
its prefix pattern is compiled from the given path, so its placeholder-name
list is empty; consequently a matched entry with an empty stored path
contributes no path captures and its params are exactly the parsed query
string; and Scope rewrites a Fallback child (whose stored path is empty)
into one whose prefix pattern is exactly the scope base. -/
theorem claim_C10 :
    (∀ name path e, FallbackJS name path = Except.ok e →
      e.path = "" ∧ e.pattern.prefixMode = true ∧
      (∀ s, path = CVal.str s → e.pattern.template = s) ∧
      (path = CVal.undef → e.pattern.template = "") ∧
      getPathParamNames e.path = []) ∧
    (∀ router loc res, locationToRoute router loc = Except.ok res →
      res.route.path = "" → res.params = parseQS loc.search) ∧
    (∀ b r sc, ScopeJS (CVal.str b) (CVal.routerC r) = Except.ok sc →
      ∀ i e, r.children.get? i = some e → e.kind = EntryKind.fallback → e.path = "" →
        sc.children.get? i = some ⟨EntryKind.fallback, e.name, "", ⟨b, true⟩⟩) := by
  refine ⟨?_, ?_, ?_⟩
  · intro name path e h
    unfold FallbackJS at h
    split at h
    · exact Except.noConfusion h
    · split at h
      · exact Except.noConfusion h
      · injection h with h'
        subst h'
        refine ⟨rfl, rfl, ?_, ?_, rfl⟩
        · intro s hs
          subst hs
          simp [pathArg] at *
          rename_i heq
          rw [heq]
        · intro hu
          subst hu
          rename_i heq
          simp [pathArg] at heq
          rw [heq]
  · intro router loc res h hp
    cases hfind : router.children.find? (fun c => patternTest c.pattern loc.pathname) with
    | none => simp [locationToRoute, hfind] at h
    | some a =>
      simp only [locationToRoute, hfind] at h
      injection h with h'
      subst h'
      have hpa : a.path = "" := hp
      rw [hpa]
      have hnames : getPathParamNames "" = [] := rfl
      rw [hnames]
      have hzip : zipParams [] ((execPat a.pattern loc.pathname).getD []) = [] := rfl
      rw [hzip]
      have hfresh : ∀ x ∈ parseQS loc.search, hasKey ([] : Params) x.1 = false := by
        intro x _; rfl
      rw [jsMerge_append (parseQS loc.search) [] hfresh (parseQS_nodupKeys loc.search)]
      rfl
  · intro b r sc h i e hget hkind hpath
    injection h with h'
    subst h'
    show (r.children.map (scopeChild b)).get? i = _
    rw [List.get?_map, hget]
    simp [scopeChild, hkind, hpath]

/-- C10 witness: `Fallback('nf', '/x/:id')` stores an empty path with a
prefix pattern over `/x/:id`, and matching `/x/42?q=1` against it yields
only the query parameter. -/
theorem claim_C10_witness :
    MatchResult.params
        ⟨⟨EntryKind.fallback, JSName.str "nf", "", ⟨"/x/:id", true⟩⟩, [("q", "1")], ""⟩ =
      parseQS "?q=1" := by
  have h := (claim_C10.2.1) ⟨[⟨EntryKind.fallback, JSName.str "nf", "", ⟨"/x/:id", true⟩⟩]⟩
    ⟨"/x/42", "?q=1", ""⟩
    ⟨⟨EntryKind.fallback, JSName.str "nf", "", ⟨"/x/:id", true⟩⟩, [("q", "1")], ""⟩ rfl rfl
  exact h

/-! ## Splitting and joining: inverse lemmas -/

/-- Consuming separator-free characters accumulates them into the current
piece. -/
theorem splitAux_append_no_sep (sep : Char) :
    ∀ (p cur rest : List Char), sep ∉ p →
      splitAux sep cur (p ++ rest) = splitAux sep (p.reverse ++ cur) rest := by
  intro p
  induction p with
  | nil => intro cur rest _; simp
  | cons c cs ih =>
    intro cur rest hsep
    have hc : ¬ (c = sep) := fun h => hsep (h ▸ List.mem_cons_self c cs)
    show splitAux sep cur (c :: (cs ++ rest)) = _
    simp only [splitAux, if_neg hc]
    rw [ih (c :: cur) rest (fun h => hsep (List.mem_cons_of_mem _ h))]
    congr 1
    simp

/-- Hitting the separator emits the current piece (if nonempty). -/
theorem splitAux_sep_cons (sep : Char) (cur rest : List Char) :
    splitAux sep cur (sep :: rest) =
      if cur.isEmpty then splitAux sep [] rest
      else String.mk cur.reverse :: splitAux sep [] rest := by
  simp [splitAux]

/-- Every emitted piece is nonempty and separator-free. -/
theorem splitAux_mem_wf (sep : Char) :
    ∀ (l cur : List Char), sep ∉ cur → ∀ x ∈ splitAux sep cur l,
      x ≠ "" ∧ sep ∉ x.toList := by
  intro l
  induction l with
  | nil =>
    intro cur hcur x hx
    simp only [splitAux] at hx
    by_cases hce : cur.isEmpty
    · rw [if_pos hce] at hx
      simp at hx
    · rw [if_neg hce] at hx
      have hx' : x = String.mk cur.reverse := by simpa using hx
      subst hx'
      constructor
      · intro he
        have hl : cur.reverse = [] := congrArg String.toList he
        rw [List.reverse_eq_nil_iff] at hl
        subst hl
        simp at hce
      · intro hmem
        exact hcur (by simpa using hmem)
  | cons c cs ih =>
    intro cur hcur x hx
    by_cases hc : c = sep
    · subst hc
      rw [splitAux_sep_cons] at hx
      by_cases hce : cur.isEmpty
      · rw [if_pos hce] at hx
        exact ih [] (by simp) x hx
      · rw [if_neg hce] at hx
        rcases List.mem_cons.mp hx with hx' | hx'
        · subst hx'
          constructor
          · intro he
            have hl : cur.reverse = [] := congrArg String.toList he
            rw [List.reverse_eq_nil_iff] at hl
            subst hl
            simp at hce
          · intro hmem
            exact hcur (by simpa using hmem)
        · exact ih [] (by simp) x hx'
    · have hstep : splitAux sep cur (c :: cs) = splitAux sep (c :: cur) cs := by
        simp only [splitAux, if_neg hc]
      rw [hstep] at hx
      have hcur' : sep ∉ c :: cur := by
        intro hm
        rcases List.mem_cons.mp hm with h' | h'
        · exact hc h'.symm
        · exact hcur h'
      exact ih (c :: cur) hcur' x hx

/-- The segments of a set of slash-joined nonempty slash-free parts are
exactly those parts. -/
theorem segsOf_joinSlash :
    ∀ parts, (∀ p ∈ parts, p ≠ "" ∧ '/' ∉ p.toList) →
      segsOf (joinSlash parts) = parts := by
  intro parts
  induction parts with
  | nil => intro _; rfl
  | cons p ps ih =>
    intro h
    have hp := h p (List.mem_cons_self _ _)
    have hptl : p.data ≠ [] := by
      intro he
      apply hp.1
      have hpm : p = String.mk p.data := rfl
      rw [hpm, he]
    have hemp : ([] : List Char).isEmpty = true := rfl
    have hnemp : (p.toList.reverse ++ []).isEmpty = false := by
      simp [hptl]
    have htl : (joinSlash (p :: ps)).toList =
        '/' :: (p.toList ++ (joinSlash ps).toList) := by
      show ("/" ++ p ++ joinSlash ps).toList = _
      simp [String.toList]
    unfold segsOf splitOnCharD
    rw [htl, splitAux_sep_cons, if_pos hemp,
      splitAux_append_no_sep '/' p.toList [] _ hp.2]
    cases ps with
    | nil =>
      show splitAux '/' (p.toList.reverse ++ []) "".toList = [p]
      simp only [splitAux]
      rw [if_neg (by simpa using hptl)]
      simp
    | cons q qs =>
      have htl2 : (joinSlash (q :: qs)).toList =
          '/' :: (q.toList ++ (joinSlash qs).toList) := by
        show ("/" ++ q ++ joinSlash qs).toList = _
        simp [String.toList]
      rw [htl2, splitAux_sep_cons, if_neg (by simpa using hptl)]
      have hihr := ih (fun x hx => h x (List.mem_cons_of_mem _ hx))
      unfold segsOf splitOnCharD at hihr
      rw [htl2, splitAux_sep_cons, if_pos hemp] at hihr
      rw [hihr]
      simp

/-- Splitting a separator-joined list of nonempty separator-free pieces
recovers the pieces. -/
theorem splitAux_joinSep (sep : Char) :
    ∀ parts, (∀ p ∈ parts, p ≠ "" ∧ sep ∉ p.toList) →
      splitAux sep [] (joinSep sep parts).toList = parts := by
  intro parts
  induction parts with
  | nil => intro _; rfl
  | cons p ps ih =>
    intro h
    have hp := h p (List.mem_cons_self _ _)
    have hptl : p.data ≠ [] := by
      intro he
      apply hp.1
      have hpm : p = String.mk p.data := rfl
      rw [hpm, he]
    cases ps with
    | nil =>
      show splitAux sep [] p.toList = [p]
      have hsplit : p.toList = p.toList ++ [] := by simp
      rw [hsplit, splitAux_append_no_sep sep p.toList [] [] hp.2]
      simp only [splitAux]
      rw [if_neg (by simpa using hptl)]
      simp
    | cons q qs =>
      have htl : (joinSep sep (p :: q :: qs)).toList =
          p.toList ++ sep :: (joinSep sep (q :: qs)).toList := by
        show (p ++ String.mk [sep] ++ joinSep sep (q :: qs)).toList = _
        simp [String.toList]
      rw [htl, splitAux_append_no_sep sep p.toList [] _ hp.2,
        splitAux_sep_cons, if_neg (by simpa using hptl)]
      rw [ih (fun x hx => h x (List.mem_cons_of_mem _ hx))]
      simp

/-! ## Query pair lemmas -/

/-- Rendering then splitting a pair at its first `=` recovers the pair, as
long as the key contains no `=`. -/
theorem parsePairAux_render :
    ∀ (kcs : List Char) (acc vcs : List Char), '=' ∉ kcs →
      parsePairAux acc (kcs ++ '=' :: vcs) =
        (String.mk (acc.reverse ++ kcs), String.mk vcs) := by
  intro kcs
  induction kcs with
  | nil =>
    intro acc vcs _
    show parsePairAux acc ('=' :: vcs) = _
    simp [parsePairAux]
  | cons c kcs' ih =>
    intro acc vcs hk
    have hc : ¬ (c = '=') := fun hce => hk (hce ▸ List.mem_cons_self c kcs')
    show parsePairAux acc (c :: (kcs' ++ '=' :: vcs)) = _
    simp only [parsePairAux, if_neg hc]
    rw [ih (c :: acc) vcs (fun hm => hk (List.mem_cons_of_mem _ hm))]
    simp

/-- Splitting a rendered pair. -/
theorem parsePair_renderPair (k v : String) (hk : '=' ∉ k.toList) :
    parsePair (renderPair (k, v)) = (k, v) := by
  unfold parsePair renderPair
  have htl : (k ++ "=" ++ v).toList = k.toList ++ '=' :: v.toList := by
    simp [String.toList]
  rw [htl, parsePairAux_render k.toList [] v.toList hk]
  simp

/-- The key produced by the pair splitter contains no `=`. -/
theorem parsePairAux_key_no_eq :
    ∀ (l acc : List Char), '=' ∉ acc → '=' ∉ (parsePairAux acc l).1.toList := by
  intro l
  induction l with
  | nil =>
    intro acc hacc hmem
    exact hacc (by simpa [parsePairAux] using hmem)
  | cons c cs ih =>
    intro acc hacc
    by_cases hc : c = '='
    · subst hc
      simp only [parsePairAux, if_pos rfl]
      intro hmem
      exact hacc (by simpa using hmem)
    · simp only [parsePairAux, if_neg hc]
      apply ih
      intro hm
      rcases List.mem_cons.mp hm with h' | h'
      · exact hc h'.symm
      · exact hacc h'

/-- The characters of both components of a split pair come from the
accumulator or the input. -/
theorem parsePairAux_chars :
    ∀ (l acc : List Char),
      (∀ c, c ∈ (parsePairAux acc l).1.toList → c ∈ acc ∨ c ∈ l) ∧
      (∀ c, c ∈ (parsePairAux acc l).2.toList → c ∈ l) := by
  intro l
  induction l with
  | nil =>
    intro acc
    constructor
    · intro c hc
      exact Or.inl (by simpa [parsePairAux] using hc)
    · intro c hc
      simp [parsePairAux] at hc
  | cons c0 cs ih =>
    intro acc
    by_cases hc0 : c0 = '='
    · subst hc0
      simp only [parsePairAux, if_pos rfl]
      constructor
      · intro c hc
        exact Or.inl (by simpa using hc)
      · intro c hc
        exact List.mem_cons_of_mem _ (by simpa using hc)
    · simp only [parsePairAux, if_neg hc0]
      constructor
      · intro c hc
        rcases (ih (c0 :: acc)).1 c hc with h' | h'
        · rcases List.mem_cons.mp h' with h'' | h''
          · exact Or.inr (h'' ▸ List.mem_cons_self _ _)
          · exact Or.inl h''
        · exact Or.inr (List.mem_cons_of_mem _ h')
      · intro c hc
        exact List.mem_cons_of_mem _ ((ih (c0 :: acc)).2 c hc)

/-! ## Sorting lemmas -/

/-- Byte-order comparison is total. -/
theorem charListLe_total : ∀ a b : List Char, charListLe a b = true ∨ charListLe b a = true := by
  intro a
  induction a with
  | nil => intro b; exact Or.inl rfl
  | cons x xs ih =>
    intro b
    cases b with
    | nil => exact Or.inr rfl
    | cons y ys =>
      rcases Nat.lt_trichotomy x.toNat y.toNat with hlt | heq | hgt
      · left
        simp [charListLe, hlt]
      · rcases ih ys with h | h
        · left
          simp [charListLe, heq, h]
        · right
          simp [charListLe, heq.symm, h]
      · right
        simp [charListLe, hgt]

/-- Key order on pairs is total. -/
theorem keyLeb_total (a b : String × String) :
    keyLeb a b = true ∨ keyLeb b a = true :=
  charListLe_total a.1.toList b.1.toList

/-- Inserting into a sorted list yields a permutation of consing. -/
theorem insertPair_perm (x : String × String) :
    ∀ l, List.Perm (insertPair x l) (x :: l) := by
  intro l
  induction l with
  | nil => exact List.Perm.refl _
  | cons y ys ih =>
    show List.Perm (if keyLeb x y then x :: y :: ys else y :: insertPair x ys) _
    by_cases hxy : keyLeb x y
    · rw [if_pos hxy]
    · rw [if_neg hxy]
      exact (ih.cons y).trans (List.Perm.swap x y ys)

/-- Sorting permutes. -/
theorem sortPairs_perm : ∀ l, List.Perm (sortPairs l) l := by
  intro l
  induction l with
  | nil => exact List.Perm.refl _
  | cons x xs ih =>
    exact (insertPair_perm x (sortPairs xs)).trans (ih.cons x)

/-- Adjacent-sortedness of a pair list. -/
def chainB : List (String × String) → Bool
  | [] => true
  | [_] => true
  | x :: y :: r => keyLeb x y && chainB (y :: r)

/-- The tail of a sorted list is sorted. -/
theorem chainB_tail (x : String × String) (l : List (String × String))
    (h : chainB (x :: l) = true) : chainB l = true := by
  cases l with
  | nil => rfl
  | cons y ys =>
    simp only [chainB, Bool.and_eq_true] at h
    exact h.2

/-- Consing onto a sorted list whose head is at least the new element. -/
theorem chainB_cons_of (y : String × String) (l : List (String × String))
    (hl : chainB l = true) (hh : ∀ z, l.head? = some z → keyLeb y z = true) :
    chainB (y :: l) = true := by
  cases l with
  | nil => rfl
  | cons z zs =>
    simp only [chainB, Bool.and_eq_true]
    exact ⟨hh z rfl, hl⟩

/-- Insertion preserves sortedness. -/
theorem chainB_insertPair (x : String × String) :
    ∀ l, chainB l = true → chainB (insertPair x l) = true := by
  intro l
  induction l with
  | nil => intro _; rfl
  | cons y ys ih =>
    intro h
    show chainB (if keyLeb x y then x :: y :: ys else y :: insertPair x ys) = true
    by_cases hxy : keyLeb x y
    · rw [if_pos hxy]
      simp only [chainB, Bool.and_eq_true]
      exact ⟨hxy, h⟩
    · rw [if_neg hxy]
      have hyx : keyLeb y x = true := by
        rcases keyLeb_total x y with h' | h'
        · exact absurd h' hxy
        · exact h'
      apply chainB_cons_of
      · exact ih (chainB_tail y ys h)
      · intro z hz
        cases ys with
        | nil =>
          have : z = x := by
            have hx := hz
            simp [insertPair] at hx
            exact hx.symm
          rw [this]
          exact hyx
        | cons w ws =>
          show keyLeb y z = true
          by_cases hxw : keyLeb x w
          · have hz' : z = x := by
              have hx := hz
              simp [insertPair, if_pos hxw] at hx
              exact hx.symm
            rw [hz']
            exact hyx
          · have hz' : z = w := by
              have hx := hz
              simp [insertPair, if_neg hxw] at hx
              exact hx.symm
            rw [hz']
            simp only [chainB, Bool.and_eq_true] at h
            exact h.1

/-- Sorting sorts. -/
theorem sortPairs_chainB : ∀ l, chainB (sortPairs l) = true := by
  intro l
  induction l with
  | nil => rfl
  | cons x xs ih => exact chainB_insertPair x (sortPairs xs) ih

/-- Sorting a sorted list is the identity. -/
theorem sortPairs_of_chainB : ∀ l, chainB l = true → sortPairs l = l := by
  intro l
  induction l with
  | nil => intro _; rfl
  | cons x xs ih =>
    intro h
    show insertPair x (sortPairs xs) = x :: xs
    rw [ih (chainB_tail x xs h)]
    cases xs with
    | nil => rfl
    | cons y ys =>
      show (if keyLeb x y then x :: y :: ys else y :: insertPair x ys) = _
      simp only [chainB, Bool.and_eq_true] at h
      rw [if_pos h.1]

/-- Sorting is idempotent. -/
theorem sortPairs_idem (l : List (String × String)) :
    sortPairs (sortPairs l) = sortPairs l :=
  sortPairs_of_chainB _ (sortPairs_chainB l)

/-! ## Query codec round trip -/

/-- An entry of an object after assignment is an old entry or the assigned
pair. -/
theorem mem_objInsert (ps : Params) (k v : String) (x : String × String)
    (h : x ∈ objInsert ps k v) : x ∈ ps ∨ x = (k, v) := by
  unfold objInsert at h
  by_cases hhk : hasKey ps k
  · rw [if_pos hhk] at h
    rcases List.mem_map.mp h with ⟨p, hp, hpx⟩
    by_cases hc : p.1 == k
    · rw [if_pos hc] at hpx
      exact Or.inr hpx.symm
    · rw [if_neg hc] at hpx
      exact Or.inl (hpx ▸ hp)
  · rw [if_neg hhk] at h
    rcases List.mem_append.mp h with h' | h'
    · exact Or.inl h'
    · exact Or.inr (by simpa using h')

/-- An entry of a fold of assignments is an initial entry or one of the
assigned pairs. -/
theorem mem_foldl_objInsert {α : Type _} (f g : α → String) :
    ∀ (l : List α) (acc : Params) (x : String × String),
      x ∈ l.foldl (fun ps y => objInsert ps (f y) (g y)) acc →
      x ∈ acc ∨ ∃ y ∈ l, x = (f y, g y) := by
  intro l
  induction l with
  | nil => intro acc x h; exact Or.inl h
  | cons a as ih =>
    intro acc x h
    rcases ih (objInsert acc (f a) (g a)) x h with h' | ⟨y, hy, hxy⟩
    · rcases mem_objInsert _ _ _ _ h' with h'' | h''
      · exact Or.inl h''
      · exact Or.inr ⟨a, List.mem_cons_self _ _, h''⟩
    · exact Or.inr ⟨y, List.mem_cons_of_mem _ hy, hxy⟩

/-- Every entry of a parsed query string has an `&`-free key and value and
an `=`-free key. -/
theorem parseQS_mem_wf (s : String) :
    ∀ x ∈ parseQS s, '&' ∉ x.1.toList ∧ '&' ∉ x.2.toList ∧ '=' ∉ x.1.toList := by
  intro x hx
  unfold parseQS at hx
  rcases mem_foldl_objInsert (fun piece => (parsePair piece).1)
      (fun piece => (parsePair piece).2) _ [] x hx with h' | ⟨piece, hpiece, hxp⟩
  · simp at h'
  · have hwfp := splitAux_mem_wf '&' (stripQM s.toList) [] (by simp) piece hpiece
    subst hxp
    refine ⟨?_, ?_, ?_⟩
    · intro hmem
      rcases (parsePairAux_chars piece.toList []).1 '&' hmem with h'' | h''
      · simp at h''
      · exact hwfp.2 h''
    · intro hmem
      exact hwfp.2 ((parsePairAux_chars piece.toList []).2 '&' hmem)
    · exact parsePairAux_key_no_eq piece.toList [] (by simp)

/-- Stripping the leading question mark is the identity when the first
character is not one. -/
theorem stripQM_of_head (l : List Char) (h : l.head? ≠ some '?') :
    stripQM l = l := by
  cases l with
  | nil => rfl
  | cons c cs =>
    unfold stripQM
    split
    · rename_i heq
      injection heq with h1 h2
      exact absurd (by simp [h1]) h
    · rfl

/-- The first character of a separator-join starting with a nonempty piece. -/
theorem joinSep_head (sep : Char) (p : String) :
    ∀ ps, p.data ≠ [] →
      (joinSep sep (p :: ps)).toList.head? = p.data.head? := by
  intro ps hp
  cases ps with
  | nil => rfl
  | cons q qs =>
    show (p ++ String.mk [sep] ++ joinSep sep (q :: qs)).toList.head? = _
    cases hd : p.data with
    | nil => exact absurd hd hp
    | cons c cs =>
      have : (p ++ String.mk [sep] ++ joinSep sep (q :: qs)).toList =
          c :: (cs ++ [sep] ++ (joinSep sep (q :: qs)).toList) := by
        simp [String.toList, hd]
      rw [this]
      rfl

/-- Folding the assignments of split rendered pairs equals folding the pairs
themselves when every key is `=`-free. -/
theorem foldl_parse_render :
    ∀ (l : Params) (acc : Params), (∀ x ∈ l, '=' ∉ x.1.toList) →
      l.foldl (fun ps x =>
        objInsert ps (parsePair (renderPair x)).1 (parsePair (renderPair x)).2) acc =
      l.foldl (fun ps x => objInsert ps x.1 x.2) acc := by
  intro l
  induction l with
  | nil => intro acc _; rfl
  | cons x xs ih =>
    intro acc h
    show List.foldl _ (objInsert acc (parsePair (renderPair x)).1 (parsePair (renderPair x)).2) xs = _
    have hx : parsePair (renderPair x) = x := by
      have := parsePair_renderPair x.1 x.2 (h x (List.mem_cons_self _ _))
      simpa using this
    rw [hx]
    exact ih _ (fun y hy => h y (List.mem_cons_of_mem _ hy))

/-- Parsing the stringified form of a well-formed parameter object recovers
the object in key-sorted order. -/
theorem parseQS_stringifyQS (qps : Params)
    (hnd : (keysP qps).Nodup)
    (hwf : ∀ x ∈ qps, '&' ∉ x.1.toList ∧ '&' ∉ x.2.toList ∧ '=' ∉ x.1.toList)
    (hq : ∀ x ∈ qps, x.1.data.head? ≠ some '?') :
    parseQS (stringifyQS qps) = sortPairs qps := by
  have hperm := sortPairs_perm qps
  have hmem : ∀ x ∈ sortPairs qps, x ∈ qps := fun x hx => hperm.mem_iff.mp hx
  have hndS : (keysP (sortPairs qps)).Nodup :=
    ((hperm.map Prod.fst).nodup_iff).mpr hnd
  cases hsq : sortPairs qps with
  | nil =>
    unfold stringifyQS
    rw [hsq]
    rfl
  | cons p rest =>
    have hmem' : ∀ x ∈ p :: rest, x ∈ qps := fun x hx => hmem x (hsq ▸ hx)
    have hpce : ∀ x ∈ p :: rest,
        (renderPair x) ≠ "" ∧ '&' ∉ (renderPair x).toList := by
      intro x hx
      have hwx := hwf x (hmem' x hx)
      constructor
      · intro he
        have : (renderPair x).toList = [] := congrArg String.toList he
        simp [renderPair, String.toList] at this
      · intro hm
        simp only [renderPair] at hm
        have : '&' ∈ x.1.toList ++ '=' :: x.2.toList := by
          simpa [String.toList] using hm
        rcases List.mem_append.mp this with h' | h'
        · exact hwx.1 h'
        · rcases List.mem_cons.mp h' with h'' | h''
          · exact absurd h'' (by decide)
          · exact hwx.2.1 h''
    have hrp : (renderPair p).data ≠ [] := by
      intro he
      simp [renderPair, String.toList] at he
    unfold stringifyQS
    rw [hsq]
    unfold parseQS
    have hstrip : stripQM (joinSep '&' (List.map renderPair (p :: rest))).toList =
        (joinSep '&' (List.map renderPair (p :: rest))).toList := by
      apply stripQM_of_head
      rw [show List.map renderPair (p :: rest) = renderPair p :: List.map renderPair rest
        from rfl]
      rw [joinSep_head '&' (renderPair p) _ hrp]
      have hhd : (renderPair p).data = p.1.data ++ '=' :: p.2.data := by
        simp [renderPair, String.toList]
      rw [hhd]
      cases hp1 : p.1.data with
      | nil => simp
      | cons c cs =>
        have hqp := hq p (hmem' p (List.mem_cons_self _ _))
        rw [hp1] at hqp
        simpa using hqp
    rw [hstrip]
    have hsplit : splitAux '&' [] (joinSep '&' (List.map renderPair (p :: rest))).toList =
        List.map renderPair (p :: rest) := by
      apply splitAux_joinSep
      intro piece hpiece
      rcases List.mem_map.mp hpiece with ⟨x, hx, hxp⟩
      exact hxp ▸ hpce x hx
    rw [hsplit, List.foldl_map]
    rw [foldl_parse_render (p :: rest) []
      (fun x hx => (hwf x (hmem' x hx)).2.2)]
    have hfold : (p :: rest).foldl (fun ps x => objInsert ps x.1 x.2) [] =
        jsMerge [] (p :: rest) := rfl
    rw [hfold, jsMerge_append (p :: rest) [] (fun x _ => rfl) (hsq ▸ hndS)]
    rfl

/-! ## Matching and filling: inverse lemmas -/

/-- The parameter object `pp` is aligned with the captures `caps` along the
token list: each placeholder (in order) looks up to exactly its positional
capture. -/
def aligns (pp : Params) : List Seg → List (Option String) → Prop
  | [], caps => caps = []
  | Seg.static _ :: ts, caps => aligns pp ts caps
  | Seg.param n _ :: ts, caps =>
    match caps with
    | [] => False
    | c :: caps' => lookupP pp n = c ∧ aligns pp ts caps'

/-- A successful match returns one capture per placeholder. -/
theorem execSegs_length :
    ∀ (ts : List Seg) (ps : List String) (pm : Bool) (caps : List (Option String)),
      execSegs ts ps pm = some caps → caps.length = (paramNames ts).length := by
  intro ts
  induction ts with
  | nil =>
    intro ps pm caps h
    simp only [execSegs] at h
    by_cases hpm : pm
    · rw [if_pos hpm] at h
      injection h with h'
      simp [← h', paramNames]
    · rw [if_neg hpm] at h
      by_cases hps : ps.isEmpty
      · rw [if_pos hps] at h
        injection h with h'
        simp [← h', paramNames]
      · rw [if_neg hps] at h
        exact Option.noConfusion h
  | cons t ts' ih =>
    intro ps pm caps h
    cases t with
    | static s =>
      cases ps with
      | nil => exact Option.noConfusion h
      | cons p ps' =>
        simp only [execSegs] at h
        by_cases hs : p = s
        · rw [if_pos hs] at h
          simpa [paramNames] using ih ps' pm caps h
        · rw [if_neg hs] at h
          exact Option.noConfusion h
    | param n opt =>
      cases opt with
      | false =>
        cases ps with
        | nil => exact Option.noConfusion h
        | cons p ps' =>
          simp only [execSegs] at h
          rcases Option.map_eq_some'.mp h with ⟨caps', hc, rfl⟩
          simpa [paramNames] using ih ps' pm caps' hc
      | true =>
        cases ps with
        | nil =>
          simp only [execSegs] at h
          rcases Option.map_eq_some'.mp h with ⟨caps', hc, rfl⟩
          simpa [paramNames] using ih [] pm caps' hc
        | cons p ps' =>
          simp only [execSegs] at h
          cases hrec : execSegs ts' ps' pm with
          | some caps0 =>
            rw [hrec] at h
            injection h with h'
            subst h'
            simpa [paramNames] using ih ps' pm caps0 hrec
          | none =>
            rw [hrec] at h
            rcases Option.map_eq_some'.mp h with ⟨caps', hc, rfl⟩
            simpa [paramNames] using ih (p :: ps') pm caps' hc

/-- Filling a template with an aligned parameter object reproduces the
matched segments (exact mode). -/
theorem fillParts_of_execSegs :
    ∀ (ts : List Seg) (segs : List String) (caps : List (Option String)) (pp : Params),
      execSegs ts segs false = some caps →
      (∀ x ∈ segs, x ≠ "" ∧ '/' ∉ x.toList) →
      aligns pp ts caps →
      fillParts ts pp = Except.ok segs := by
  intro ts
  induction ts with
  | nil =>
    intro segs caps pp h hwf halign
    simp only [execSegs, if_neg (Bool.false_ne_true)] at h
    by_cases hps : segs.isEmpty
    · rw [if_pos hps] at h
      rw [List.isEmpty_iff] at hps
      subst hps
      rfl
    · rw [if_neg hps] at h
      exact Option.noConfusion h
  | cons t ts' ih =>
    intro segs caps pp h hwf halign
    cases t with
    | static s =>
      cases segs with
      | nil => exact Option.noConfusion h
      | cons p segs' =>
        simp only [execSegs] at h
        by_cases hs : p = s
        · rw [if_pos hs] at h
          have := ih segs' caps pp h
            (fun x hx => hwf x (List.mem_cons_of_mem _ hx)) halign
          show (fillParts ts' pp).map (fun rest => s :: rest) = _
          rw [this, hs]
          rfl
        · rw [if_neg hs] at h
          exact Option.noConfusion h
    | param n opt =>
      cases opt with
      | false =>
        cases segs with
        | nil => exact Option.noConfusion h
        | cons p segs' =>
          simp only [execSegs] at h
          rcases Option.map_eq_some'.mp h with ⟨caps', hc, hcap⟩
          subst hcap
          obtain ⟨hlk, hal⟩ := halign
          have hfill := ih segs' caps' pp hc
            (fun x hx => hwf x (List.mem_cons_of_mem _ hx)) hal
          show (match lookupP pp n with
            | some v => if v = "" then Except.error ("Expected " ++ n ++ " to match")
              else (fillParts ts' pp).map (fun rest => v :: rest)
            | none => if false then fillParts ts' pp
              else Except.error ("Expected " ++ n ++ " to be defined")) = _
          rw [hlk]
          have hpne := (hwf p (List.mem_cons_self _ _)).1
          simp [hfill, hpne, Except.map]
      | true =>
        cases segs with
        | nil =>
          simp only [execSegs] at h
          rcases Option.map_eq_some'.mp h with ⟨caps', hc, hcap⟩
          subst hcap
          obtain ⟨hlk, hal⟩ := halign
          have hfill := ih [] caps' pp hc (by simp) hal
          show (match lookupP pp n with
            | some v => if v = "" then Except.error ("Expected " ++ n ++ " to match")
              else (fillParts ts' pp).map (fun rest => v :: rest)
            | none => if true then fillParts ts' pp
              else Except.error ("Expected " ++ n ++ " to be defined")) = _
          rw [hlk]
          rw [hfill]
          rfl
        | cons p segs' =>
          simp only [execSegs] at h
          cases hrec : execSegs ts' segs' false with
          | some caps0 =>
            rw [hrec] at h
            injection h with h'
            subst h'
            obtain ⟨hlk, hal⟩ := halign
            have hfill := ih segs' caps0 pp hrec
              (fun x hx => hwf x (List.mem_cons_of_mem _ hx)) hal
            show (match lookupP pp n with
              | some v => if v = "" then Except.error ("Expected " ++ n ++ " to match")
                else (fillParts ts' pp).map (fun rest => v :: rest)
              | none => if true then fillParts ts' pp
                else Except.error ("Expected " ++ n ++ " to be defined")) = _
            rw [hlk]
            have hpne := (hwf p (List.mem_cons_self _ _)).1
            simp [hfill, hpne, Except.map]
          | none =>
            rw [hrec] at h
            rcases Option.map_eq_some'.mp h with ⟨caps', hc, hcap⟩
            subst hcap
            obtain ⟨hlk, hal⟩ := halign
            have hfill := ih (p :: segs') caps' pp hc hwf hal
            show (match lookupP pp n with
              | some v => if v = "" then Except.error ("Expected " ++ n ++ " to match")
                else (fillParts ts' pp).map (fun rest => v :: rest)
              | none => if true then fillParts ts' pp
                else Except.error ("Expected " ++ n ++ " to be defined")) = _
            rw [hlk]
            rw [hfill]
            rfl

/-- A key in the zipped path parameters is one of the placeholder names. -/
theorem hasKey_zipParams_mem (ns : List String) (vs : List (Option String))
    (k : String) (h : hasKey (zipParams ns vs) k = true) : k ∈ ns := by
  rcases hasKey_zipParamsAux ns vs [] k h with habs | ⟨i, v, hget, _⟩
  · simp [hasKey] at habs
  · exact List.get?_mem hget

/-- Zipping with a fresh accumulator splits as an append (duplicate-free
names). -/
theorem zipParamsAux_append :
    ∀ (ns : List String) (vs : List (Option String)) (acc : Params),
      ns.Nodup → (∀ n ∈ ns, hasKey acc n = false) →
      zipParamsAux acc ns vs = acc ++ zipParamsAux [] ns vs := by
  intro ns
  induction ns with
  | nil => intro vs acc _ _; simp [zipParamsAux]
  | cons n ns' ih =>
    intro vs acc hnd hfresh
    have hndt : ns'.Nodup := hnd.of_cons
    have hn : n ∉ ns' := (List.nodup_cons.mp hnd).1
    cases hv : vs.head? with
    | some ov =>
      cases ov with
      | some v =>
        have hl : zipParamsAux acc (n :: ns') vs =
            zipParamsAux (objInsert acc n v) ns' vs.tail := by
          simp [zipParamsAux, hv]
        have hr : zipParamsAux [] (n :: ns') vs =
            zipParamsAux (objInsert [] n v) ns' vs.tail := by
          simp [zipParamsAux, hv]
        have hinsA : objInsert acc n v = acc ++ [(n, v)] := by
          unfold objInsert
          rw [if_neg (by simp [hfresh n (List.mem_cons_self _ _)])]
        have hinsN : objInsert ([] : Params) n v = [(n, v)] := rfl
        rw [hl, hr, hinsA, hinsN]
        rw [ih vs.tail (acc ++ [(n, v)]) hndt ?freshA]
        rw [ih vs.tail [(n, v)] hndt ?freshN]
        · simp
        case freshA =>
          intro m hm
          rw [hasKey_append]
          have h1 : hasKey acc m = false := hfresh m (List.mem_cons_of_mem _ hm)
          have hmn : ¬ (m == n) = true := by
            intro hbe
            exact hn (eq_of_beq hbe ▸ hm)
          have h2 : hasKey [(n, v)] m = false := by
            simp only [hasKey, List.any_cons, List.any_nil, Bool.or_false]
            cases hbe : (n == m) with
            | false => rfl
            | true => exact absurd (by rw [eq_of_beq hbe]; exact beq_self_eq_true m) hmn
          rw [h1, h2]
          rfl
        case freshN =>
          intro m hm
          have hmn : ¬ (m == n) = true := by
            intro hbe
            exact hn (eq_of_beq hbe ▸ hm)
          simp only [hasKey, List.any_cons, List.any_nil, Bool.or_false]
          cases hbe : (n == m) with
          | false => rfl
          | true => exact absurd (by rw [eq_of_beq hbe]; exact beq_self_eq_true m) hmn
      | none =>
        have hl : zipParamsAux acc (n :: ns') vs = zipParamsAux acc ns' vs.tail := by
          simp [zipParamsAux, hv]
        have hr : zipParamsAux [] (n :: ns') vs = zipParamsAux [] ns' vs.tail := by
          simp [zipParamsAux, hv]
        rw [hl, hr]
        exact ih vs.tail acc hndt (fun m hm => hfresh m (List.mem_cons_of_mem _ hm))
    | none =>
      have hl : zipParamsAux acc (n :: ns') vs = zipParamsAux acc ns' vs.tail := by
        simp [zipParamsAux, hv]
      have hr : zipParamsAux [] (n :: ns') vs = zipParamsAux [] ns' vs.tail := by
        simp [zipParamsAux, hv]
      rw [hl, hr]
      exact ih vs.tail acc hndt (fun m hm => hfresh m (List.mem_cons_of_mem _ hm))

/-- Alignment only depends on lookups at the placeholder names. -/
theorem aligns_ext :
    ∀ (ts : List Seg) (caps : List (Option String)) (pp pp' : Params),
      aligns pp ts caps →
      (∀ n ∈ paramNames ts, lookupP pp' n = lookupP pp n) →
      aligns pp' ts caps := by
  intro ts
  induction ts with
  | nil => intro caps pp pp' h _; exact h
  | cons t ts' ih =>
    intro caps pp pp' h hlk
    cases t with
    | static s =>
      exact ih caps pp pp' h (fun n hn => hlk n (by simpa [paramNames] using hn))
    | param n b =>
      cases caps with
      | nil => exact absurd h (by simp [aligns])
      | cons c caps' =>
        obtain ⟨h1, h2⟩ := h
        refine ⟨?_, ?_⟩
        · rw [hlk n (by simp [paramNames])]
          exact h1
        · exact ih caps' pp pp' h2
            (fun m hm => hlk m (by simp [paramNames]; exact Or.inr (by simpa [paramNames] using hm)))

/-- The zipped path parameters are aligned with the captures when the
placeholder names are duplicate-free and captures are positional. -/
theorem aligns_zipParams :
    ∀ (ts : List Seg) (caps : List (Option String)),
      (paramNames ts).Nodup → caps.length = (paramNames ts).length →
      aligns (zipParams (paramNames ts) caps) ts caps := by
  intro ts
  induction ts with
  | nil =>
    intro caps _ hlen
    have : caps = [] := List.eq_nil_of_length_eq_zero (by simpa [paramNames] using hlen)
    simpa [aligns] using this
  | cons t ts' ih =>
    intro caps hnd hlen
    cases t with
    | static s =>
      have hps : paramNames (Seg.static s :: ts') = paramNames ts' := by
        simp [paramNames]
      show aligns (zipParams (paramNames (Seg.static s :: ts')) caps) ts' caps
      rw [hps]
      rw [hps] at hnd hlen
      exact ih caps hnd hlen
    | param n b =>
      have hps : paramNames (Seg.param n b :: ts') = n :: paramNames ts' := by
        simp [paramNames]
      rw [hps] at hnd hlen
      have hndt : (paramNames ts').Nodup := hnd.of_cons
      have hn : n ∉ paramNames ts' := (List.nodup_cons.mp hnd).1
      cases caps with
      | nil => simp at hlen
      | cons c caps' =>
        have hlen' : caps'.length = (paramNames ts').length := by
          simpa using hlen
        have hsplit : zipParams (paramNames (Seg.param n b :: ts')) (c :: caps') =
            (match c with
              | some v => [(n, v)]
              | none => []) ++ zipParams (paramNames ts') caps' := by
          show zipParamsAux [] (n :: paramNames ts') (c :: caps') = _
          have hstep : zipParamsAux [] (n :: paramNames ts') (c :: caps') =
              zipParamsAux (match c with
                | some v => objInsert [] n v
                | none => []) (paramNames ts') caps' := by
            cases c with
            | some v => simp [zipParamsAux]
            | none => simp [zipParamsAux]
          rw [hstep]
          cases c with
          | some v =>
            show zipParamsAux [(n, v)] (paramNames ts') caps' = _
            rw [zipParamsAux_append (paramNames ts') caps' [(n, v)] hndt ?_]
            · rfl
            · intro m hm
              have hmn : ¬ (n == m) = true := by
                intro hbe
                exact hn (eq_of_beq hbe ▸ hm)
              simp only [hasKey, List.any_cons, List.any_nil, Bool.or_false]
              cases hbe : (n == m) with
              | false => rfl
              | true => exact absurd hbe hmn
          | none =>
            show zipParamsAux [] (paramNames ts') caps' = _
            rfl
        have hzkeys : ∀ m, hasKey (zipParams (paramNames ts') caps') m = true →
            m ∈ paramNames ts' := fun m hm => hasKey_zipParams_mem _ _ _ hm
        have hlkzip : ∀ m, m ∉ paramNames ts' →
            lookupP (zipParams (paramNames ts') caps') m = none := by
          intro m hm
          apply lookupP_eq_none_of_hasKey_false
          cases hhk : hasKey (zipParams (paramNames ts') caps') m with
          | false => rfl
          | true => exact absurd (hzkeys m hhk) hm
        constructor
        · rw [hsplit]
          cases c with
          | some v =>
            apply lookupP_append_left
            simp [lookupP, List.lookup]
          | none =>
            show lookupP ([] ++ zipParams (paramNames ts') caps') n = none
            rw [lookupP_append_right [] _ n (show lookupP [] n = none from rfl)]
            exact hlkzip n hn
        · apply aligns_ext ts' caps' (zipParams (paramNames ts') caps')
          · exact ih caps' hndt hlen'
          · intro m hm
            rw [hsplit]
            cases c with
            | some v =>
              have hmn : m ≠ n := fun he => hn (he ▸ hm)
              have hl1 : lookupP [(n, v)] m = none := by
                have hb : (m == n) = false := by simpa using hmn
                simp [lookupP, List.lookup, hb]
              exact lookupP_append_right _ _ _ hl1
            | none =>
              exact lookupP_append_right [] _ m (show lookupP [] m = none from rfl)

/-- The segments of any pathname are nonempty and slash-free. -/
theorem segsOf_wf (s : String) : ∀ x ∈ segsOf s, x ≠ "" ∧ '/' ∉ x.toList :=
  splitAux_mem_wf '/' s.toList [] (by simp)

/-- Membership gives a true `contains`. -/
theorem contains_eq_true_of_mem {l : List String} {a : String} (h : a ∈ l) :
    l.contains a = true :=
  List.elem_iff.mpr h

/-- A true `contains` gives membership. -/
theorem mem_of_contains_eq_true {l : List String} {a : String}
    (h : l.contains a = true) : a ∈ l :=
  List.elem_iff.mp h

/-- C3 counterexample: on `Router([Route('item','/item/:itemId')])` (no
duplicate names, no overlapping patterns) the location
`/item/123?itemId=999` resolves to the item Route with params
`itemId=999` (the query value wins), and translating back gives pathname
`/item/999` with an empty search: not equivalent to the original location. -/
theorem claim_C3_counterexample :
    locationToRoute cexRouter cexLoc =
      Except.ok ⟨exEntryItem, [("itemId", "999")], ""⟩ ∧
    exEntryItem.kind = EntryKind.route ∧
    routeToLocation cexRouter exEntryItem.name [("itemId", "999")] "" =
      Except.ok ⟨"/item/999", "", ""⟩ ∧
    locEquiv ⟨"/item/999", "", ""⟩ cexLoc = false :=
  ⟨rfl, rfl, rfl, rfl⟩

/-- C3 amended: the inbound-then-outbound round trip produces an equivalent
location provided that (a) the matched entry is a Route, (b) outbound
lookup by its name finds that same entry (no earlier Route shares the name),
(c) its placeholder names are duplicate-free, (d) its pattern is the exact
pattern compiled from its stored path (as holds for every constructor-built
Route), (e) no query-string key collides with a placeholder name, and
(f) no query-string key needs URL-encoding by starting with a question
mark.  Equivalence means equal pathname segments, equal parsed query
mappings and equal hash. -/
theorem claim_C3_amended (router : RouterT) (loc : Location) (res : MatchResult)
    (hres : locationToRoute router loc = Except.ok res)
    (hkind : res.route.kind = EntryKind.route)
    (hfirst : router.children.find?
      (fun c => c.kind == EntryKind.route && nameEq c.name res.route.name) =
      some res.route)
    (hnodup : (getPathParamNames res.route.path).Nodup)
    (hpat : res.route.pattern = ⟨res.route.path, false⟩)
    (hnocollide : ∀ x ∈ parseQS loc.search, x.1 ∉ getPathParamNames res.route.path)
    (hqm : ∀ x ∈ parseQS loc.search, x.1.data.head? ≠ some '?') :
    ∃ loc', routeToLocation router res.route.name res.params res.hash =
      Except.ok loc' ∧ locEquiv loc' loc = true := by
  cases hfind : router.children.find? (fun c => patternTest c.pattern loc.pathname) with
  | none => simp [locationToRoute, hfind] at hres
  | some a =>
    simp only [locationToRoute, hfind] at hres
    injection hres with hres'
    have hroute : res.route = a := by rw [← hres']
    have hparams : res.params =
        jsMerge (zipParams (getPathParamNames a.path)
          ((execPat a.pattern loc.pathname).getD [])) (parseQS loc.search) := by
      rw [← hres']
    have hhash : res.hash = loc.hash := by rw [← hres']
    rw [hroute] at hkind hfirst hnodup hpat hnocollide
    -- the matcher accepted the pathname
    have htest : patternTest a.pattern loc.pathname = true := by
      have hx := List.find?_some hfind
      simpa using hx
    obtain ⟨caps, hexec⟩ : ∃ caps, execPat a.pattern loc.pathname = some caps := by
      cases hx : execPat a.pattern loc.pathname with
      | none => rw [patternTest, hx] at htest; simp at htest
      | some caps => exact ⟨caps, rfl⟩
    have hcaps : (execPat a.pattern loc.pathname).getD [] = caps := by
      rw [hexec]; rfl
    have hexec' : execSegs (parsePath a.path) (segsOf loc.pathname) false = some caps := by
      rw [← hexec, hpat]
      rfl
    -- alignment of the zipped path parameters
    have hlen : caps.length = (paramNames (parsePath a.path)).length :=
      execSegs_length _ _ _ _ hexec'
    have halign : aligns (zipParams (getPathParamNames a.path) caps)
        (parsePath a.path) caps :=
      aligns_zipParams (parsePath a.path) caps hnodup hlen
    -- refilling the template reproduces the matched segments
    have hfillparts : fillParts (parsePath a.path)
        (zipParams (getPathParamNames a.path) caps) = Except.ok (segsOf loc.pathname) :=
      fillParts_of_execSegs (parsePath a.path) (segsOf loc.pathname) caps _
        hexec' (segsOf_wf loc.pathname) halign
    -- the merged params split as path captures followed by query params
    set pathP := zipParams (getPathParamNames a.path) caps with hpathP
    set qps := parseQS loc.search with hqps
    have hfresh : ∀ x ∈ qps, hasKey pathP x.1 = false := by
      intro x hx
      cases hhk : hasKey pathP x.1 with
      | false => rfl
      | true =>
        exact absurd (hasKey_zipParams_mem _ _ _ hhk) (hnocollide x hx)
    have hmerge : jsMerge pathP qps = pathP ++ qps :=
      jsMerge_append qps pathP hfresh (parseQS_nodupKeys loc.search)
    have hparams' : res.params = pathP ++ qps := by
      rw [hparams, hcaps, ← hpathP, hmerge]
    -- filtering the merged params by placeholder names recovers each side
    have hfilterP : keyFilter (pathP ++ qps)
        (fun k => (getPathParamNames a.path).contains k) = pathP := by
      rw [keyFilter, List.filter_append]
      have h1 : pathP.filter (fun p => (getPathParamNames a.path).contains p.1) = pathP := by
        apply List.filter_eq_self.mpr
        intro p hp
        apply contains_eq_true_of_mem
        apply hasKey_zipParams_mem (getPathParamNames a.path) caps
        exact (hasKey_iff_mem _ _).mpr (List.mem_map.mpr ⟨p, hp, rfl⟩)
      have h2 : qps.filter (fun p => (getPathParamNames a.path).contains p.1) = [] := by
        apply List.filter_eq_nil.mpr
        intro p hp
        intro hc
        exact hnocollide p hp (mem_of_contains_eq_true hc)
      rw [h1, h2, List.append_nil]
    have hfilterQ : keyFilter (pathP ++ qps)
        (fun k => !((getPathParamNames a.path).contains k)) = qps := by
      rw [keyFilter, List.filter_append]
      have h1 : pathP.filter (fun p => !((getPathParamNames a.path).contains p.1)) = [] := by
        apply List.filter_eq_nil.mpr
        intro p hp
        have hmemn : p.1 ∈ getPathParamNames a.path := by
          apply hasKey_zipParams_mem (getPathParamNames a.path) caps
          exact (hasKey_iff_mem _ _).mpr (List.mem_map.mpr ⟨p, hp, rfl⟩)
        simp [hmemn]
      have h2 : qps.filter (fun p => !((getPathParamNames a.path).contains p.1)) = qps := by
        apply List.filter_eq_self.mpr
        intro p hp
        have hm : p.1 ∉ getPathParamNames a.path := hnocollide p hp
        simp [hm]
      rw [h1, h2, List.nil_append]
    -- run the outbound translation
    have hfillpath : fillPath a.path pathP = Except.ok
        (match segsOf loc.pathname with
          | [] => if a.path = "" then "" else if parsePath a.path = [] then "/" else ""
          | _ => joinSlash (segsOf loc.pathname)) := by
      unfold fillPath
      rw [hfillparts]
    refine ⟨⟨(match segsOf loc.pathname with
      | [] => if a.path = "" then "" else if parsePath a.path = [] then "/" else ""
      | _ => joinSlash (segsOf loc.pathname)), stringifyQS qps, loc.hash⟩, ?_, ?_⟩
    · rw [hroute, hparams', hhash]
      simp only [routeToLocation, hfirst]
      rw [show keyFilter (pathP ++ qps) (fun k => (getPathParamNames a.path).contains k) =
        pathP from hfilterP]
      rw [show keyFilter (pathP ++ qps) (fun k => !((getPathParamNames a.path).contains k)) =
        qps from hfilterQ]
      rw [hfillpath]
    · -- equivalence of the round-tripped location
      have hsegs : segsOf (match segsOf loc.pathname with
          | [] => if a.path = "" then "" else if parsePath a.path = [] then "/" else ""
          | _ => joinSlash (segsOf loc.pathname)) = segsOf loc.pathname := by
        cases hsg : segsOf loc.pathname with
        | nil =>
          by_cases hap : a.path = ""
          · simp [hap]
            rfl
          · by_cases hpp : parsePath a.path = []
            · simp [hap, hpp]
              rfl
            · simp [hap, hpp]
              rfl
        | cons p ps =>
          have := segsOf_joinSlash (segsOf loc.pathname) (segsOf_wf loc.pathname)
          rw [hsg] at this
          exact this
      have hsearch : canonQS (stringifyQS qps) = canonQS loc.search := by
        unfold canonQS
        rw [parseQS_stringifyQS qps (parseQS_nodupKeys loc.search)
          (parseQS_mem_wf loc.search) hqm]
        rw [sortPairs_idem]
      simp [locEquiv, hsegs, hsearch]

/-- C3 amended witness: the round trip at `/item/123?sort=asc` on the
scenario router. -/
theorem claim_C3_amended_witness :
    ∃ loc', routeToLocation exRouter
        (MatchResult.route ⟨exEntryItem, [("itemId", "123"), ("sort", "asc")], ""⟩).name
        (MatchResult.params ⟨exEntryItem, [("itemId", "123"), ("sort", "asc")], ""⟩)
        (MatchResult.hash ⟨exEntryItem, [("itemId", "123"), ("sort", "asc")], ""⟩) =
      Except.ok loc' ∧ locEquiv loc' ⟨"/item/123", "?sort=asc", ""⟩ = true := by
  exact claim_C3_amended exRouter ⟨"/item/123", "?sort=asc", ""⟩
    ⟨exEntryItem, [("itemId", "123"), ("sort", "asc")], ""⟩
    rfl rfl rfl (by decide) rfl (by decide) (by decide)
